import Mathlib

/-
Verification development for `src/complete_evaluation.py` (HPI-CH/PROPEL).
The driver `main` is embedded shallowly: pandas DataFrames become ordered
lists of named rational columns, the filesystem becomes an association list
from paths to file contents, and the run is a pure function that also
records a trace of the seed-carrying calls it makes.  Collaborator code
that is not part of the repository snapshot (the single-model evaluator,
the model grid, the metric enumeration, sklearn's `train_test_split`) is
either a parameter of the development or modelled from the spec, as noted
on each definition.
-/

namespace PROPEL

/-! ### Generic association-list (Python dict) helpers -/

/-- Python `d[k]` read access: a missing key raises `KeyError`. -/
def lookupE [BEq κ] (d : List (κ × α)) (k : κ) (msg : String) : Except String α :=
  match d.lookup k with
  | some v => Except.ok v
  | none => Except.error ("KeyError: " ++ msg)

/-- Python `d[k] = v`: replace the value in place when the key exists,
otherwise append the new binding (dicts preserve insertion order). -/
def dictInsert [BEq κ] (d : List (κ × α)) (k : κ) (v : α) : List (κ × α) :=
  if d.any (fun p => p.1 == k) then
    d.map (fun p => if p.1 == k then (k, v) else p)
  else
    d ++ [(k, v)]

/-! ### DataFrames -/

/-- A pandas DataFrame: an ordered list of named columns of rational values. -/
structure DF where
  columns : List (String × List Rat)
deriving DecidableEq

instance : Inhabited DF := ⟨⟨[]⟩⟩

/-- The DataFrame's column names, in order. -/
def DF.colNames (d : DF) : List String := d.columns.map Prod.fst

/-- `d[name]`: the values of one column (a pandas Series). -/
def DF.col (d : DF) (n : String) : List Rat := (d.columns.lookup n).getD []

/-- Row selection by index list (columns are unchanged; missing indices
default to 0, which never happens for the index lists built below). -/
def DF.selectRows (d : DF) (idx : List Nat) : DF :=
  ⟨d.columns.map (fun p => (p.1, idx.map (fun i => p.2.getD i 0)))⟩

/-! ### Schema reconciliation (lines 61-64 of `complete_evaluation.py`) -/

/-- pandas `a.columns.difference(b.columns)`: the set of names of `a` that do
not occur in `b` (pandas returns them sorted and deduplicated; only
membership and emptiness of the result matter below). -/
def colsDiff (a b : List String) : List String :=
  (a.filter (fun c => !(b.contains c))).dedup

/-- Line 63: `X_val = X_val.drop(set(X_val.columns.difference(X.columns)), axis=1)` —
drop from `xval` every column that is absent from `x`. -/
def dropExtraCols (xval x : DF) : DF :=
  ⟨xval.columns.filter (fun p => x.colNames.contains p.1)⟩

/-! ### Seeded shuffling and the stratified split -/

/-- One step of a linear congruential generator.  The concrete constants are
irrelevant to every property proved below; only determinism in the seed is
used. -/
def lcg (s : Nat) : Nat := (s * 1103515245 + 12345) % 2147483648

/-- Fuelled seed-driven selection shuffle. -/
def shuffleA : Nat → Nat → List Nat → List Nat
  | 0, _, _ => []
  | _ + 1, _, [] => []
  | f + 1, s, a :: as =>
    let v := (a :: as).getD (s % (a :: as).length) a
    v :: shuffleA f (lcg s) ((a :: as).erase v)

/-- A deterministic seed-driven permutation of a list of row indices. -/
def shuffle (s : Nat) (l : List Nat) : List Nat := shuffleA l.length s l

/-- The distinct values of a label column, in order of first occurrence. -/
def uniq : List Rat → List Rat
  | [] => []
  | a :: as => a :: ((uniq as).filter (fun b => !(b == a)))

/-- The row indices holding class `c` of the label column `y`. -/
def idxOfClass (y : List Rat) (c : Rat) : List Nat :=
  (List.range y.length).filter (fun i => y.getD i 0 == c)

/-- Number of test rows drawn from a class of `n` members at test fraction
`frac`: `ceil(frac * n)`. -/
def nTest (frac : Rat) (n : Nat) : Nat := (Int.ceil (frac * (n : Rat))).toNat

/-- The test rows drawn from one class: a seeded permutation of the class's
row indices, truncated to the class's test count. -/
def classBlock (seed : Nat) (frac : Rat) (y : List Rat) (c : Rat) : List Nat :=
  (shuffle seed (idxOfClass y c)).take (nTest frac (idxOfClass y c).length)

/-- The test row indices of the stratified split: per class (in order of
first occurrence), a seeded permutation of that class's row indices is drawn
and its first `nTest` entries go to the test partition. -/
def testIdx (seed : Nat) (frac : Rat) (y : List Rat) : List Nat :=
  (uniq y).flatMap (classBlock seed frac y)

/-- The remaining row indices form the train partition. -/
def trainIdx (seed : Nat) (frac : Rat) (y : List Rat) : List Nat :=
  (List.range y.length).filter (fun i => !((testIdx seed frac y).contains i))

/-- Label values at the given row indices. -/
def selectVals (y : List Rat) (idx : List Nat) : List Rat :=
  idx.map (fun i => y.getD i 0)

/-- Modelled from the spec: `sklearn.model_selection.train_test_split(X, y,
test_size=frac, random_state=seed, shuffle=True, stratify=y)` (library code,
absent from `src/`).  Spec 4.1: a stratified random split of `(X, y)` into
train/test using the configured fraction and seed; per label class a
seed-driven permutation of the class's rows is drawn and `ceil(frac * n_c)`
of them go to the test partition.  Returns `(X_train, X_test, y_train,
y_test)` as at line 84. -/
def train_test_split (X : DF) (y : List Rat) (frac : Rat) (seed : Nat) :
    DF × DF × List Rat × List Rat :=
  (X.selectRows (trainIdx seed frac y), X.selectRows (testIdx seed frac y),
   selectVals y (trainIdx seed frac y), selectVals y (testIdx seed frac y))

/-! ### The metric enumeration and evaluator results -/

/-- Modelled from the spec: `all_classification_metrics_list`
(`src/utils/metrics.py`, absent from `src/`): the metric-name enumeration
listing every supported metric key, "including `confusion_matrix` and
`mcc`" (spec 6). -/
def all_classification_metrics_list : List String :=
  ["accuracy", "precision", "recall", "f1", "specificity", "auroc", "auprc",
   "mcc", "confusion_matrix"]

/-- A NumPy array holding an integer confusion matrix. -/
structure NdArray where
  data : List (List Int)
deriving DecidableEq

/-- `ndarray.tolist()`: the plain nested-sequence form of the array. -/
def NdArray.tolist (a : NdArray) : List (List Int) := a.data

/-- A value stored in a metric dictionary: a test scalar, a per-fold list of
validation values, or a confusion matrix (single, or one per fold). -/
inductive MVal where
  | scalar : Rat → MVal
  | folds : List Rat → MVal
  | mat : NdArray → MVal
  | mats : List NdArray → MVal
deriving DecidableEq

def MVal.isScalar : MVal → Bool | .scalar _ => true | _ => false
def MVal.isFolds : MVal → Bool | .folds _ => true | _ => false
def MVal.isMat : MVal → Bool | .mat _ => true | _ => false
def MVal.isMats : MVal → Bool | .mats _ => true | _ => false

/-- The `(val_metrics, test_metrics, curves)` triple returned by
`evaluate_single_model` for one candidate. -/
structure EvalResult where
  val_metrics : List (String × MVal)
  test_metrics : List (String × MVal)
  curves : List (Rat × Rat)
deriving DecidableEq

/-- Everything `main` passes into `evaluate_single_model` (lines 102-109),
plus the ambient global NumPy RNG state visible to the callee. -/
structure EvalInput where
  X_train : DF
  y_train : List Rat
  X_test : DF
  y_test : List Rat
  cv_splits : Nat
  select_features : Bool
  shap_value_eval : Bool
  out_dir : String
  sample_balancing : String
  seed : Nat
  npGlobalState : Nat
deriving DecidableEq

/-- Well-formedness of one evaluator result, from the spec (4.3, 8): the
metric names of `val_metrics` and of `test_metrics` both equal the
configured metric enumeration; validation entries are per-fold data and test
entries are scalars, except the confusion matrix which is a NumPy matrix
(per fold on the validation side). -/
def ResOK (r : EvalResult) : Prop :=
  r.val_metrics.map Prod.fst = all_classification_metrics_list ∧
  r.test_metrics.map Prod.fst = all_classification_metrics_list ∧
  (∀ p ∈ r.val_metrics,
    (if p.1 = "confusion_matrix" then p.2.isMats else p.2.isFolds) = true) ∧
  (∀ p ∈ r.test_metrics,
    (if p.1 = "confusion_matrix" then p.2.isMat else p.2.isScalar) = true)

/-! ### The model candidate catalog -/

/-- One entry of the model grid: an estimator specification paired with its
hyperparameter search space.  `name` is the estimator's class name. -/
structure Candidate where
  name : String
  stochastic : Bool
  supportsClassWeight : Bool
  classWeight : Option String
  seed : Nat
  paramGrid : List (String × List Rat)
deriving DecidableEq

/-- The single-model evaluator `evaluate_single_model` (`src/evaluate.py`,
absent from `src/`) is kept abstract: the whole development is parameterized
over it.  It receives the `(model, param_grid)` pair and everything `main`
passes at lines 102-109. -/
abbrev EvalFn := Candidate → EvalInput → EvalResult

/-- Modelled from the spec: `get_classification_model_grid` (`src/models.py`,
absent from `src/`).  Spec 4.2: an ordered sequence of
`(estimator, hyperparameter_grid)` pairs; when class-weighting is requested,
every estimator template that supports it is instantiated with balanced
class weights; the seed is threaded into every stochastic estimator.  The
catalog is pure configuration. -/
def get_classification_model_grid (class_weight : Option String) (seed : Nat) :
    List Candidate :=
  [{ name := "LogisticRegression", stochastic := true, supportsClassWeight := true,
     classWeight := class_weight, seed := seed, paramGrid := [("C", [1, 10])] },
   { name := "RandomForestClassifier", stochastic := true, supportsClassWeight := true,
     classWeight := class_weight, seed := seed, paramGrid := [("n_estimators", [100, 200])] },
   { name := "KNeighborsClassifier", stochastic := false, supportsClassWeight := false,
     classWeight := none, seed := 0, paramGrid := [("n_neighbors", [3, 5])] },
   { name := "SVC", stochastic := true, supportsClassWeight := true,
     classWeight := class_weight, seed := seed, paramGrid := [("C", [1])] }]

/-- Line 99-100: the model grid requested by `main` —
`get_classification_model_grid('balanced' if args.balancing_option == 'class_weight' else None, seed=args.seed)`. -/
def mainGridArg (balancing_option : String) : Option String :=
  if balancing_option = "class_weight" then some "balanced" else none

/-! ### Metric tables (pandas DataFrames of line 67) -/

/-- One per-metric results table: rows are model names, columns are (written)
label names; `cells` is the sparse cell store. -/
structure Table where
  rowNames : List String
  colNames : List String
  cells : List ((String × String) × MVal)
deriving DecidableEq

def emptyTable : Table := ⟨[], [], []⟩

/-- Append a name to an index unless it is already present. -/
def addNew (l : List String) (x : String) : List String :=
  if l.contains x then l else l ++ [x]

/-- First-occurrence deduplication of a name list. -/
def dedupF (l : List String) : List String := l.foldl addNew []

/-- `df.loc[r, c] = v`: sets the cell, appending a new row label and/or a new
column label when not yet present. -/
def Table.setCell (t : Table) (r c : String) (v : MVal) : Table where
  rowNames := addNew t.rowNames r
  colNames := addNew t.colNames c
  cells := dictInsert t.cells (r, c) v

def Table.getCell (t : Table) (r c : String) : Option MVal :=
  t.cells.lookup (r, c)

/-- Line 138: `label_col.replace(' ', '_')`. -/
def sanitizeLabel (s : String) : String :=
  s.map (fun ch => if ch = ' ' then '_' else ch)

/-- Decimal-free rendering of a rational for CSV cells. -/
def ratStr (q : Rat) : String :=
  if q.den = 1 then toString q.num else toString q.num ++ "/" ++ toString q.den

/-- Rendering of a cell value.  The non-scalar cases never occur in the
tables the program builds; some total rendering is still required. -/
def mvalStr : MVal → String
  | .scalar q => ratStr q
  | .folds qs => String.intercalate ";" (qs.map ratStr)
  | .mat m => toString m.data.length
  | .mats ms => toString ms.length

def cellStr (t : Table) (r c : String) : String :=
  match t.getCell r c with
  | some v => mvalStr v
  | none => ""

/-- `df.to_csv(path)`: header line of column names, then one line per row. -/
def tableToCsv (t : Table) : String :=
  "," ++ String.intercalate "," t.colNames ++ "\n" ++
  String.join (t.rowNames.map (fun r =>
    r ++ "," ++ String.intercalate "," (t.colNames.map (cellStr t r)) ++ "\n"))

/-! ### JSON values and the filesystem -/

/-- A JSON value, as produced by `json.dump`. -/
inductive Json where
  | num : Rat → Json
  | str : String → Json
  | arr : List Json → Json
  | obj : List (String × Json) → Json

instance : Inhabited Json := ⟨Json.num 0⟩

/-- JSON form of a `tolist()`ed confusion matrix: nested arrays of numbers. -/
def jsonOfMat (m : List (List Int)) : Json :=
  Json.arr (m.map (fun row => Json.arr (row.map (fun z => Json.num (z : Rat)))))

/-- The content of one file: plain text, or a structured JSON record. -/
inductive FileData where
  | text : String → FileData
  | json : Json → FileData

instance : Inhabited FileData := ⟨FileData.text ""⟩

/-- The filesystem: an association list from paths to file contents. -/
abbrev FS := List (String × FileData)

/-- `open(path, 'w')` followed by a full write: create or truncate. -/
def fsWrite (fs : FS) (path : String) (d : FileData) : FS :=
  dictInsert fs path d

/-- `open(path, 'a+')` followed by a write: append to the existing file, or
create it. -/
def fsAppend (fs : FS) (path : String) (s : String) : FS :=
  match fs.lookup path with
  | some (FileData.text t) => dictInsert fs path (FileData.text (t ++ s))
  | _ => dictInsert fs path (FileData.text s)

/-! ### Arguments and call-trace events -/

/-- The configuration fields of `args` that `main`'s core reads.  The knobs
consumed only by the out-of-scope collaborators (parsing, preprocessing) are
not represented. -/
structure Args where
  dataset : String
  external_testset : Bool
  out_dir : String
  cv_splits : Nat
  select_features : Bool
  shap_eval : Bool
  test_fraction : Rat
  balancing_option : String
  seed : Nat
deriving DecidableEq

def bestParamsPath (a : Args) : String := a.out_dir ++ "/best_parameters.txt"

def csvPath (a : Args) (metric : String) : String :=
  a.out_dir ++ "/data_frames/" ++ metric ++ ".csv"

def jsonPath (a : Args) (label : String) : String :=
  a.out_dir ++ "/" ++ label ++ "/all_model_metrics.json"

/-- The rendering of `vars(args)` appended to the trial log (line 71). -/
def argsStr (a : Args) : String :=
  "dataset=" ++ a.dataset ++ ", out_dir=" ++ a.out_dir ++ ", seed=" ++ toString a.seed ++
  ", balancing_option=" ++ a.balancing_option

/-- An entry of the run's call trace: the two global seedings of lines 23-24,
the schema reconciliation of lines 61-64, and the three kinds of calls that
receive a seed (split, grid, single-model evaluation). -/
inductive Event where
  | npSeed : Nat → Event
  | pySeed : Nat → Event
  | reconcileEv : Event
  | splitCall : Nat → Event
  | gridCall : Nat → Event
  | evalCall : String → Nat → Event
deriving DecidableEq

/-- The seed an event carries, when it carries one. -/
def Event.seedOf : Event → Option Nat
  | .npSeed s => some s
  | .pySeed s => some s
  | .reconcileEv => none
  | .splitCall s => some s
  | .gridCall s => some s
  | .evalCall _ s => some s

/-! ### The per-label loop body (lines 74-141) -/

/-- The model grid built at lines 99-100 of the label loop. -/
def mainGrid (a : Args) : List Candidate :=
  get_classification_model_grid (mainGridArg a.balancing_option) a.seed

/-- Lines 101-110: evaluate every candidate of the grid and store the result
keyed by the estimator's class name (`str(model.__class__.__name__)`). -/
def buildAmm (ev : EvalFn) (grid : List Candidate) (inp : EvalInput) :
    List (String × EvalResult) :=
  grid.foldl (fun d c => dictInsert d c.name (ev c inp)) []

/-- Line 117: the confusion-matrix JSON entry of one model —
`([cv_cm.tolist() for cv_cm in val_metrics[m]], test_metrics[m].tolist())`;
`tolist` on anything but a NumPy array raises. -/
def cmEntryE (p : String × EvalResult) : Except String (String × Json) :=
  match p.2.val_metrics.lookup "confusion_matrix",
        p.2.test_metrics.lookup "confusion_matrix" with
  | some (MVal.mats ms), some (MVal.mat t) =>
    Except.ok (p.1, Json.arr [Json.arr (ms.map (fun m => jsonOfMat m.tolist)),
                              jsonOfMat t.tolist])
  | some _, some _ => Except.error "AttributeError: tolist"
  | _, _ => Except.error "KeyError: confusion_matrix"

/-- `json.dump` of a metric value: per-fold lists and scalars serialize,
NumPy arrays raise `TypeError`. -/
def plainMValE : MVal → Except String Json
  | MVal.scalar q => Except.ok (Json.num q)
  | MVal.folds qs => Except.ok (Json.arr (qs.map Json.num))
  | _ => Except.error "TypeError: ndarray is not JSON serializable"

/-- Lines 120-122: the JSON entry of one model for a non-confusion metric —
`(val_metrics[m], test_metrics[m])`. -/
def metricEntryE (mname : String) (p : String × EvalResult) :
    Except String (String × Json) :=
  match p.2.val_metrics.lookup mname, p.2.test_metrics.lookup mname with
  | some vv, some tv =>
    match plainMValE vv, plainMValE tv with
    | Except.ok jv, Except.ok jt => Except.ok (p.1, Json.arr [jv, jt])
    | Except.error e, _ => Except.error e
    | _, Except.error e => Except.error e
  | _, _ => Except.error ("KeyError: " ++ mname)

/-- Lines 114-124: build `json_metric_data`, keyed by the metric names of the
last model's validation metrics, each mapping every model to its entry. -/
def jsonMetricDataE (amm : List (String × EvalResult)) :
    List String → Except String (List (String × Json))
  | [] => Except.ok []
  | mname :: rest =>
    let entry : Except String (List (String × Json)) :=
      if mname = "confusion_matrix" then amm.mapM cmEntryE
      else amm.mapM (metricEntryE mname)
    match entry, jsonMetricDataE amm rest with
    | Except.ok es, Except.ok tail => Except.ok ((mname, Json.obj es) :: tail)
    | Except.error e, _ => Except.error e
    | _, Except.error e => Except.error e

/-- Lines 135-138: for one model's `test_data`, write every non-confusion
metric value into that metric's run table at
`[model_name, label_col.replace(' ', '_')]`; `all_test_metric_dfs[metric]`
raises on an unknown metric key. -/
def applyTestData (mname lbl : String) :
    List (String × Table) → List (String × MVal) →
    Except String (List (String × Table))
  | tables, [] => Except.ok tables
  | tables, (metric, value) :: rest =>
    if metric = "confusion_matrix" then applyTestData mname lbl tables rest
    else
      match tables.lookup metric with
      | some t =>
        applyTestData mname lbl
          (dictInsert tables metric (t.setCell mname (sanitizeLabel lbl) value)) rest
      | none => Except.error ("KeyError: " ++ metric)

/-- Line 134: iterate the model results in insertion order. -/
def applyAllTestData (lbl : String) (tables : List (String × Table)) :
    List (String × EvalResult) → Except String (List (String × Table))
  | [] => Except.ok tables
  | (mname, r) :: rest =>
    match applyTestData mname lbl tables r.test_metrics with
    | Except.ok ts => applyAllTestData lbl ts rest
    | Except.error e => Except.error e

/-- Lines 140-141: overwrite every per-metric CSV with the current table. -/
def writeCsvs (a : Args) (fs : FS) (tables : List (String × Table)) : FS :=
  tables.foldl (fun fs p => fsWrite fs (csvPath a p.1) (FileData.text (tableToCsv p.2))) fs

/-- The evaluator input of lines 102-109 (`seed=seed` with `seed = args.seed`;
`g` is the ambient global NumPy RNG state). -/
def mkEvalInput (a : Args) (Xtr : DF) (ytr : List Rat) (Xte : DF)
    (yte : List Rat) (g : Nat) : EvalInput where
  X_train := Xtr
  y_train := ytr
  X_test := Xte
  y_test := yte
  cv_splits := a.cv_splits
  select_features := a.select_features
  shap_value_eval := a.shap_eval
  out_dir := a.out_dir
  sample_balancing := a.balancing_option
  seed := a.seed
  npGlobalState := g

/-- The `"SVC"` candidate: the last entry of the modelled grid, whose
validation-metric keys drive the JSON serialization at line 115. -/
def lastCandidate (class_weight : Option String) (seed : Nat) : Candidate :=
  { name := "SVC", stochastic := true, supportsClassWeight := true,
    classWeight := class_weight, seed := seed, paramGrid := [("C", [1])] }

/-- The record kept of one completed label iteration: the split that was
used, the per-model results, the serialized JSON record, and snapshots of the
run tables and the filesystem right after the iteration. -/
structure LabelOut where
  label : String
  X_train : DF
  y_train : List Rat
  X_test : DF
  y_test : List Rat
  all_model_metrics : List (String × EvalResult)
  jsonOut : Json
  tablesAfter : List (String × Table)
  filesAfter : FS

instance : Inhabited LabelOut :=
  ⟨⟨"", default, [], default, [], [], default, [], []⟩⟩

/-- The state threaded through the label loop. -/
structure St where
  tables : List (String × Table)
  files : FS
  trace : List Event
  outs : List LabelOut

/-- One iteration of the loop at lines 74-141 for label column `label`.
The plot renderers called at lines 123 and 127-131 are out-of-scope
collaborators (spec 1) and pure consumers of the data recorded in the
`LabelOut`; they are not modelled. -/
def labelStep (ev : EvalFn) (a : Args) (X Y : DF) (ext : Option (DF × DF))
    (g : Nat) (st : St) (label : String) : Except String St :=
  let files1 := fsAppend st.files (bestParamsPath a) ("=====\n" ++ label ++ "\n=====")
  let y := Y.col label
  let mode : Except String (DF × DF × List Rat × List Rat × List Event) :=
    match ext with
    | none =>
      let r := train_test_split X y a.test_fraction a.seed
      Except.ok (r.1, r.2.1, r.2.2.1, r.2.2.2, st.trace ++ [Event.splitCall a.seed])
    | some (Xv, Yv) =>
      match Yv.columns.lookup label with
      | some yv => Except.ok (X, Xv, y, yv, st.trace)
      | none => Except.error ("KeyError: " ++ label)
  match mode with
  | Except.error e => Except.error e
  | Except.ok (Xtr, Xte, ytr, yte, tr1) =>
    let grid := mainGrid a
    let tr2 := tr1 ++ [Event.gridCall a.seed] ++ grid.map (fun c => Event.evalCall c.name a.seed)
    let inp := mkEvalInput a Xtr ytr Xte yte g
    let amm := buildAmm ev grid inp
    match grid.getLast? with
    | none => Except.error "NameError: name model is not defined"
    | some last =>
      match amm.lookup last.name with
      | none => Except.error ("KeyError: " ++ last.name)
      | some lastR =>
        match jsonMetricDataE amm (lastR.val_metrics.map Prod.fst) with
        | Except.error e => Except.error e
        | Except.ok entries =>
          let js := Json.obj entries
          let files2 := fsWrite files1 (jsonPath a label) (FileData.json js)
          match applyAllTestData label st.tables amm with
          | Except.error e => Except.error e
          | Except.ok tables2 =>
            let files3 := writeCsvs a files2 tables2
            Except.ok
              { tables := tables2
                files := files3
                trace := tr2
                outs := st.outs ++
                  [{ label := label, X_train := Xtr, y_train := ytr, X_test := Xte,
                     y_test := yte, all_model_metrics := amm, jsonOut := js,
                     tablesAfter := tables2, filesAfter := files3 }] }

/-- The label loop of line 74, over the columns of `Y` in order. -/
def runLabels (ev : EvalFn) (a : Args) (X Y : DF) (ext : Option (DF × DF))
    (g : Nat) : List String → St → Except String St
  | [], st => Except.ok st
  | l :: ls, st =>
    match labelStep ev a X Y ext g st l with
    | Except.ok st2 => runLabels ev a X Y ext g ls st2
    | Except.error e => Except.error e

/-- The observable outcome of one run of `main`. -/
structure RunOut where
  labels : List LabelOut
  tables : List (String × Table)
  files : FS
  trace : List Event

/-- Line 67: one empty table per non-confusion metric. -/
def initTables : List (String × Table) :=
  (all_classification_metrics_list.filter (fun m => !(m == "confusion_matrix"))).map
    (fun m => (m, emptyTable))

/-- Lines 69-72: the trial-log header appended on an empty filesystem. -/
def initFiles (a : Args) : FS :=
  fsAppend [] (bestParamsPath a)
    ("\n========== New Trial ==========\n" ++ argsStr a ++ "\n")

/-- Lines 22-24 and 67-72: the state entering the label loop of an
internal-mode run — the two global seedings recorded in the trace, one empty
table per non-confusion metric, and the trial-log header on the filesystem. -/
def initSt (a : Args) : St :=
  { tables := initTables, files := initFiles a,
    trace := [Event.npSeed a.seed, Event.pySeed a.seed], outs := [] }

/-- The state entering the label loop of an external-validation run, after
the successful schema reconciliation of lines 61-64. -/
def initStExt (a : Args) : St :=
  { tables := initTables, files := initFiles a,
    trace := [Event.npSeed a.seed, Event.pySeed a.seed, Event.reconcileEv], outs := [] }

/-- Shallow embedding of `main` (lines 20-141).  `X, Y` are the preprocessed
training feature/label matrices of line 43 and `Xval, Yval` the externally
preprocessed ones of line 54 (parsing and preprocessing are out-of-scope
collaborators, spec 1); `g0` is the ambient global NumPy RNG state on entry,
which lines 23-24 replace by `args.seed` — nothing downstream reads `g0`.
The timestamped output-directory naming of lines 25-30 is environment
interaction and is not modelled: `a.out_dir` is the resolved directory. -/
def mainRun (ev : EvalFn) (a : Args) (X Y Xval Yval : DF) (g0 : Nat) :
    Except String RunOut :=
  let g := a.seed
  if a.external_testset then
    let Xv := dropExtraCols Xval X
    if colsDiff X.colNames Xv.colNames = [] then
      match runLabels ev a X Y (some (Xv, Yval)) g Y.colNames (initStExt a) with
      | Except.ok st => Except.ok ⟨st.outs, st.tables, st.files, st.trace⟩
      | Except.error e => Except.error e
    else
      Except.error "AssertionError: Train data includes columns that are missing in val data"
  else
    match runLabels ev a X Y none g Y.colNames (initSt a) with
    | Except.ok st => Except.ok ⟨st.outs, st.tables, st.files, st.trace⟩
    | Except.error e => Except.error e

/-! ### Association-list lemmas -/

theorem dictInsert_nil [BEq κ] (k : κ) (v : α) :
    dictInsert ([] : List (κ × α)) k v = [(k, v)] := rfl

theorem dictInsert_cons [BEq κ] [LawfulBEq κ] (p : κ × α) (d : List (κ × α))
    (k : κ) (v : α) :
    dictInsert (p :: d) k v =
      if p.1 == k then (k, v) :: d.map (fun q => if q.1 == k then (k, v) else q)
      else p :: dictInsert d k v := by
  unfold dictInsert
  by_cases h : (p.1 == k) = true
  · simp [List.any_cons, h]
  · simp only [List.any_cons, h, Bool.false_or, if_neg (by simp [h] : ¬(p.1 == k) = true)]
    split <;> simp [h]

theorem dictInsert_of_not_mem [BEq κ] [LawfulBEq κ] {d : List (κ × α)} {k : κ}
    (v : α) (h : k ∉ d.map Prod.fst) : dictInsert d k v = d ++ [(k, v)] := by
  induction d with
  | nil => rfl
  | cons p rest ih =>
    simp only [List.map_cons, List.mem_cons, not_or] at h
    rw [dictInsert_cons, if_neg (by simp [Ne.symm h.1]), ih h.2, List.cons_append]

theorem map_fst_replace [BEq κ] [LawfulBEq κ] (d : List (κ × α)) (k : κ) (v : α) :
    (d.map (fun q => if q.1 == k then (k, v) else q)).map Prod.fst = d.map Prod.fst := by
  induction d with
  | nil => rfl
  | cons p rest ih =>
    simp only [List.map_cons, ih]
    by_cases h : (p.1 == k) = true
    · simp [h, eq_of_beq h]
    · simp [h]

theorem map_fst_dictInsert_of_mem [BEq κ] [LawfulBEq κ] {d : List (κ × α)} {k : κ}
    (v : α) (h : k ∈ d.map Prod.fst) :
    (dictInsert d k v).map Prod.fst = d.map Prod.fst := by
  induction d with
  | nil => simp at h
  | cons p rest ih =>
    obtain ⟨k1, v1⟩ := p
    rw [dictInsert_cons]
    by_cases hpk : k1 = k
    · rw [if_pos (by simpa using hpk)]
      simp only [List.map_cons, map_fst_replace]
      simp [hpk]
    · rw [if_neg (by simpa using hpk)]
      simp only [List.map_cons, List.mem_cons] at h
      rcases h with h1 | h2
      · exact absurd h1.symm hpk
      · simp only [List.map_cons, ih h2]

theorem lookup_dictInsert_self [BEq κ] [LawfulBEq κ] (d : List (κ × α)) (k : κ) (v : α) :
    (dictInsert d k v).lookup k = some v := by
  induction d with
  | nil => simp [dictInsert_nil]
  | cons p rest ih =>
    obtain ⟨k1, v1⟩ := p
    rw [dictInsert_cons]
    by_cases hpk : k1 = k
    · rw [if_pos (by simpa using hpk)]
      simp
    · rw [if_neg (by simpa using hpk)]
      rw [List.lookup_cons]
      have hne : (k == k1) = false := by simpa using Ne.symm hpk
      simp [hne, ih]

theorem lookup_replace_ne [BEq κ] [LawfulBEq κ] (d : List (κ × α)) {k k' : κ}
    (v : α) (h : k' ≠ k) :
    (d.map (fun q => if q.1 == k then (k, v) else q)).lookup k' = d.lookup k' := by
  induction d with
  | nil => rfl
  | cons p rest ih =>
    obtain ⟨k1, v1⟩ := p
    simp only [List.map_cons]
    by_cases hpk : k1 = k
    · rw [if_pos (by simpa using hpk)]
      rw [List.lookup_cons, List.lookup_cons]
      have h1 : (k' == k) = false := by simpa using h
      have h2 : (k' == k1) = false := by simpa using (hpk ▸ h : k' ≠ k1)
      simp [h1, h2, ih]
    · rw [if_neg (by simpa using hpk)]
      rw [List.lookup_cons, List.lookup_cons]
      cases hp' : (k' == k1) <;> simp [hp', ih]

theorem lookup_dictInsert_ne [BEq κ] [LawfulBEq κ] (d : List (κ × α)) {k k' : κ}
    (v : α) (h : k' ≠ k) : (dictInsert d k v).lookup k' = d.lookup k' := by
  induction d with
  | nil =>
    rw [dictInsert_nil, List.lookup_cons]
    have h1 : (k' == k) = false := by simpa using h
    simp [h1]
  | cons p rest ih =>
    obtain ⟨k1, v1⟩ := p
    rw [dictInsert_cons]
    by_cases hpk : k1 = k
    · rw [if_pos (by simpa using hpk)]
      rw [List.lookup_cons, List.lookup_cons]
      have h1 : (k' == k) = false := by simpa using h
      have h2 : (k' == k1) = false := by simpa using (hpk ▸ h : k' ≠ k1)
      simp [h1, h2, lookup_replace_ne rest v h]
    · rw [if_neg (by simpa using hpk)]
      rw [List.lookup_cons, List.lookup_cons]
      cases hp' : (k' == k1) <;> simp [hp', ih]

theorem lookup_of_mem_keys [BEq κ] [LawfulBEq κ] {d : List (κ × α)} {k : κ}
    (h : k ∈ d.map Prod.fst) : ∃ v, d.lookup k = some v := by
  induction d with
  | nil => simp at h
  | cons p rest ih =>
    obtain ⟨k1, v1⟩ := p
    rw [List.lookup_cons]
    by_cases hpk : k = k1
    · exact ⟨v1, by simp [hpk]⟩
    · have hne : (k == k1) = false := by simpa using hpk
      simp only [List.map_cons, List.mem_cons] at h
      rcases h with h1 | h2
      · exact absurd h1 hpk
      · simpa [hne] using ih h2

theorem lookup_mem [BEq κ] [LawfulBEq κ] {d : List (κ × α)} {k : κ} {v : α}
    (h : d.lookup k = some v) : (k, v) ∈ d := by
  induction d with
  | nil => simp at h
  | cons p rest ih =>
    obtain ⟨k1, v1⟩ := p
    rw [List.lookup_cons] at h
    by_cases hpk : k = k1
    · have he : (k == k1) = true := by simpa using hpk
      simp only [he, Option.some.injEq] at h
      exact (show ((k1, v1) : κ × α) = (k, v) by simp [hpk, h]) ▸ List.mem_cons_self _ _
    · have hne : (k == k1) = false := by simpa using hpk
      simp only [hne] at h
      exact List.mem_cons_of_mem _ (ih h)

/-! ### The shuffle is a permutation -/

theorem getD_mem_of_pos {l : List Nat} (i : Nat) (a : Nat) (h : 0 < l.length) :
    l.getD i a ∈ l ∨ l.getD i a = a := by
  by_cases hi : i < l.length
  · left
    rw [List.getD_eq_getElem?_getD, List.getElem?_eq_getElem hi]
    exact List.getElem_mem hi
  · right
    rw [List.getD_eq_getElem?_getD, List.getElem?_eq_none (Nat.le_of_not_lt hi)]
    rfl

theorem shuffleA_perm (f : Nat) : ∀ (s : Nat) (l : List Nat),
    l.length = f → List.Perm (shuffleA f s l) l := by
  induction f with
  | zero =>
    intro s l h
    rw [List.length_eq_zero] at h
    subst h
    exact List.Perm.refl _
  | succ f ih =>
    intro s l h
    cases l with
    | nil => simp at h
    | cons a as =>
      have hpos : 0 < (a :: as).length := by simp
      have hv : (a :: as).getD (s % (a :: as).length) a ∈ a :: as := by
        rcases getD_mem_of_pos (s % (a :: as).length) a hpos with hm | he
        · exact hm
        · rw [he]; exact List.mem_cons_self a as
      have hlen : ((a :: as).erase ((a :: as).getD (s % (a :: as).length) a)).length = f := by
        rw [List.length_erase_of_mem hv]
        simpa using congrArg (fun n => n - 1) h
      have hstep : shuffleA (f + 1) s (a :: as) =
          (a :: as).getD (s % (a :: as).length) a ::
            shuffleA f (lcg s) ((a :: as).erase ((a :: as).getD (s % (a :: as).length) a)) := rfl
      rw [hstep]
      exact ((ih (lcg s) _ hlen).cons _).trans (List.perm_cons_erase hv).symm

theorem shuffle_perm (s : Nat) (l : List Nat) : List.Perm (shuffle s l) l :=
  shuffleA_perm l.length s l rfl

theorem shuffle_mem {s : Nat} {l : List Nat} {x : Nat} : x ∈ shuffle s l ↔ x ∈ l :=
  (shuffle_perm s l).mem_iff

theorem shuffle_nodup {s : Nat} {l : List Nat} (h : l.Nodup) : (shuffle s l).Nodup :=
  ((shuffle_perm s l).nodup_iff).mpr h

theorem shuffle_length (s : Nat) (l : List Nat) : (shuffle s l).length = l.length :=
  (shuffle_perm s l).length_eq

/-! ### Counting lemmas for the stratified split -/

theorem mem_uniq {y : List Rat} {b : Rat} : b ∈ uniq y ↔ b ∈ y := by
  induction y with
  | nil => simp [uniq]
  | cons a as ih =>
    simp only [uniq, List.mem_cons, List.mem_filter, ih]
    by_cases hb : b = a
    · simp [hb]
    · simp [hb]

theorem nodup_uniq (y : List Rat) : (uniq y).Nodup := by
  induction y with
  | nil => simp [uniq]
  | cons a as ih =>
    rw [uniq, List.nodup_cons]
    constructor
    · simp
    · exact ih.filter _

theorem mem_idxOfClass {y : List Rat} {c : Rat} {i : Nat} :
    i ∈ idxOfClass y c ↔ i < y.length ∧ y.getD i 0 = c := by
  simp [idxOfClass, List.mem_filter, List.mem_range]

theorem nodup_idxOfClass (y : List Rat) (c : Rat) : (idxOfClass y c).Nodup :=
  (List.nodup_range _).filter _

theorem countP_range_getD (l : List Rat) (d : Rat) (p : Rat → Bool) :
    (List.range l.length).countP (fun i => p (l.getD i d)) = l.countP p := by
  induction l with
  | nil => rfl
  | cons a as ih =>
    rw [List.length_cons, List.range_succ_eq_map, List.countP_cons, List.countP_map]
    have h1 : ((List.range as.length).countP
        ((fun i => p ((a :: as).getD i d)) ∘ Nat.succ)) =
        (List.range as.length).countP (fun i => p (as.getD i d)) := by
      apply List.countP_congr
      intro x _
      simp
    rw [h1, ih, List.countP_cons]
    simp

theorem length_idxOfClass (y : List Rat) (c : Rat) :
    (idxOfClass y c).length = y.count c := by
  rw [idxOfClass, ← List.countP_eq_length_filter, List.count, ← countP_range_getD y 0]

theorem classBlock_subset {seed : Nat} {frac : Rat} {y : List Rat} {c : Rat} :
    classBlock seed frac y c ⊆ idxOfClass y c := by
  intro i hi
  exact shuffle_mem.mp ((List.take_sublist _ _).subset hi)

theorem classBlock_nodup (seed : Nat) (frac : Rat) (y : List Rat) (c : Rat) :
    (classBlock seed frac y c).Nodup :=
  (List.take_sublist _ _).nodup (shuffle_nodup (nodup_idxOfClass y c))

theorem classBlock_length (seed : Nat) (frac : Rat) (y : List Rat) (c : Rat) :
    (classBlock seed frac y c).length = min (nTest frac (y.count c)) (y.count c) := by
  rw [classBlock, List.length_take, shuffle_length, length_idxOfClass]

theorem classBlock_label {seed : Nat} {frac : Rat} {y : List Rat} {c : Rat} {i : Nat}
    (h : i ∈ classBlock seed frac y c) : i < y.length ∧ y.getD i 0 = c :=
  mem_idxOfClass.mp (classBlock_subset h)

theorem mem_testIdx {seed : Nat} {frac : Rat} {y : List Rat} {i : Nat} :
    i ∈ testIdx seed frac y ↔ ∃ c ∈ uniq y, i ∈ classBlock seed frac y c := by
  simp [testIdx]

theorem testIdx_nodup (seed : Nat) (frac : Rat) (y : List Rat) :
    (testIdx seed frac y).Nodup := by
  rw [testIdx]
  have : ∀ cs : List Rat, cs.Nodup → (∀ c ∈ cs, c ∈ uniq y) →
      (cs.flatMap (classBlock seed frac y)).Nodup := by
    intro cs
    induction cs with
    | nil => intro _ _; simp
    | cons c cs ih =>
      intro hnd hmem
      rw [List.flatMap_cons, List.nodup_append]
      refine ⟨classBlock_nodup seed frac y c, ih hnd.of_cons (fun c2 h2 => hmem c2 (List.mem_cons_of_mem _ h2)), ?_⟩
      intro i hi hij
      rcases List.mem_flatMap.mp hij with ⟨c2, hc2, hic2⟩
      have h1 : y.getD i 0 = c := (classBlock_label hi).2
      have h2 : y.getD i 0 = c2 := (classBlock_label hic2).2
      have : c ∈ cs := by rw [show c = c2 from h1 ▸ h2]; exact hc2
      exact (List.nodup_cons.mp hnd).1 this
  exact this (uniq y) (nodup_uniq y) (fun c h => h)

theorem testIdx_subset_range {seed : Nat} {frac : Rat} {y : List Rat} :
    ∀ i ∈ testIdx seed frac y, i < y.length := by
  intro i hi
  rcases mem_testIdx.mp hi with ⟨c, _, hic⟩
  exact (classBlock_label hic).1

theorem selectVals_count (y : List Rat) (idx : List Nat) (c : Rat) :
    (selectVals y idx).count c = idx.countP (fun i => y.getD i 0 == c) := by
  rw [selectVals, List.count_eq_countP, List.countP_map]
  rfl

theorem selectVals_length (y : List Rat) (idx : List Nat) :
    (selectVals y idx).length = idx.length := by
  simp [selectVals]

theorem sum_map_eq_single {cs : List Rat} {c : Rat} (f : Rat → Nat)
    (hc : c ∈ cs) (hnd : cs.Nodup) (h0 : ∀ b ∈ cs, b ≠ c → f b = 0) :
    (cs.map f).sum = f c := by
  induction cs with
  | nil => simp at hc
  | cons a cs ih =>
    rw [List.map_cons, List.sum_cons]
    rcases List.mem_cons.mp hc with rfl | hin
    · have hz : (cs.map f).sum = 0 := by
        apply List.sum_eq_zero
        intro x hx
        rcases List.mem_map.mp hx with ⟨b, hb, rfl⟩
        exact h0 b (List.mem_cons_of_mem _ hb)
          (fun e => (List.nodup_cons.mp hnd).1 (e ▸ hb))
      simp [hz]
    · have hane : a ≠ c := fun e => (List.nodup_cons.mp hnd).1 (e ▸ hin)
      rw [h0 a (List.mem_cons_self _ _) hane,
        ih hin (List.nodup_cons.mp hnd).2 (fun b hb => h0 b (List.mem_cons_of_mem _ hb))]
      exact Nat.zero_add _

theorem countP_classBlock_self (seed : Nat) (frac : Rat) (y : List Rat) (c : Rat) :
    (classBlock seed frac y c).countP (fun i => y.getD i 0 == c) =
      (classBlock seed frac y c).length :=
  List.countP_eq_length.mpr (fun i hi => beq_iff_eq.mpr (classBlock_label hi).2)

theorem countP_classBlock_ne (seed : Nat) (frac : Rat) (y : List Rat) {b c : Rat}
    (h : b ≠ c) :
    (classBlock seed frac y b).countP (fun i => y.getD i 0 == c) = 0 :=
  List.countP_eq_zero.mpr (fun i hi hbe =>
    h ((classBlock_label hi).2.symm.trans (beq_iff_eq.mp hbe)))

theorem count_testIdx (seed : Nat) (frac : Rat) (y : List Rat) {c : Rat}
    (hc : c ∈ uniq y) :
    (testIdx seed frac y).countP (fun i => y.getD i 0 == c) =
      (classBlock seed frac y c).length := by
  rw [testIdx, List.flatMap, List.countP_flatten, List.map_map]
  show ((uniq y).map
      (fun b => (classBlock seed frac y b).countP (fun i => y.getD i 0 == c))).sum = _
  rw [sum_map_eq_single _ hc (nodup_uniq y)
    (fun b _ hbc => countP_classBlock_ne seed frac y hbc)]
  exact countP_classBlock_self seed frac y c

theorem testIdx_length (seed : Nat) (frac : Rat) (y : List Rat) :
    (testIdx seed frac y).length =
      ((uniq y).map (fun c => (classBlock seed frac y c).length)).sum := by
  rw [testIdx, List.flatMap, List.length_flatten, List.map_map]
  rfl

theorem countP_partition (l : List Nat) (p q : Nat → Bool) :
    l.countP p = l.countP (fun i => p i && q i) + l.countP (fun i => p i && !q i) := by
  induction l with
  | nil => rfl
  | cons a l ih =>
    rw [List.countP_cons, List.countP_cons, List.countP_cons, ih]
    cases hp : p a <;> cases hq : q a <;> simp [hp, hq] <;> omega

theorem filter_perm_of_mem_iff {A C : List Nat} {p : Nat → Bool}
    (hA : A.Nodup) (hC : C.Nodup)
    (h : ∀ i, i ∈ C ↔ i ∈ A ∧ p i = true) : List.Perm (A.filter p) C := by
  apply List.Subperm.antisymm
  · exact ((hA.filter p).subperm (fun i hi => (h i).mpr (by simpa using List.mem_filter.mp hi)))
  · exact (hC.subperm (fun i hi => List.mem_filter.mpr (by simpa using (h i).mp hi)))

theorem mem_testIdx_of_label {seed : Nat} {frac : Rat} {y : List Rat} {c : Rat} {i : Nat}
    (hlab : y.getD i 0 = c) (hit : i ∈ testIdx seed frac y) :
    i ∈ classBlock seed frac y c := by
  rcases mem_testIdx.mp hit with ⟨b, _, hib⟩
  have : b = c := (classBlock_label hib).2.symm.trans hlab
  exact this ▸ hib

theorem countP_range_inter_testIdx (seed : Nat) (frac : Rat) (y : List Rat) {c : Rat}
    (hc : c ∈ uniq y) :
    (List.range y.length).countP
        (fun i => (y.getD i 0 == c) && (testIdx seed frac y).contains i) =
      (classBlock seed frac y c).length := by
  rw [List.countP_eq_length_filter]
  refine (filter_perm_of_mem_iff (List.nodup_range _) (classBlock_nodup seed frac y c) ?_).length_eq
  intro i
  constructor
  · intro hi
    obtain ⟨hlt, hlab⟩ := classBlock_label hi
    refine ⟨List.mem_range.mpr hlt, ?_⟩
    have hmem : i ∈ testIdx seed frac y := mem_testIdx.mpr ⟨c, hc, hi⟩
    rw [Bool.and_eq_true]
    exact ⟨beq_iff_eq.mpr hlab, List.elem_iff.mpr hmem⟩
  · rintro ⟨_, hp⟩
    rw [Bool.and_eq_true] at hp
    have hlab : y.getD i 0 = c := by simpa using hp.1
    have hmem : i ∈ testIdx seed frac y := by
      have := hp.2
      rwa [List.elem_iff] at this
    exact mem_testIdx_of_label hlab hmem

theorem count_trainIdx (seed : Nat) (frac : Rat) (y : List Rat) {c : Rat}
    (hc : c ∈ uniq y) :
    (trainIdx seed frac y).countP (fun i => y.getD i 0 == c) =
      y.count c - (classBlock seed frac y c).length := by
  rw [trainIdx, List.countP_filter]
  have hpart := countP_partition (List.range y.length)
    (fun i => y.getD i 0 == c) (fun i => (testIdx seed frac y).contains i)
  have hall : (List.range y.length).countP (fun i => y.getD i 0 == c) = y.count c := by
    rw [List.count_eq_countP]
    exact countP_range_getD y 0 (fun b => b == c)
  have hinter := countP_range_inter_testIdx seed frac y hc
  omega

theorem countP_range_testIdx (seed : Nat) (frac : Rat) (y : List Rat) :
    (List.range y.length).countP (fun i => (testIdx seed frac y).contains i) =
      (testIdx seed frac y).length := by
  rw [List.countP_eq_length_filter]
  refine (filter_perm_of_mem_iff (List.nodup_range _) (testIdx_nodup seed frac y) ?_).length_eq
  intro i
  constructor
  · intro hi
    refine ⟨List.mem_range.mpr (testIdx_subset_range i hi), ?_⟩
    simpa [List.elem_iff] using hi
  · rintro ⟨_, hp⟩
    rwa [List.elem_iff] at hp

theorem trainIdx_length (seed : Nat) (frac : Rat) (y : List Rat) :
    (trainIdx seed frac y).length = y.length - (testIdx seed frac y).length := by
  rw [trainIdx, ← List.countP_eq_length_filter]
  have hpart := countP_partition (List.range y.length)
    (fun _ => true) (fun i => (testIdx seed frac y).contains i)
  have h1 : (List.range y.length).countP (fun _ => true) = y.length := by simp
  have h2 : (List.range y.length).countP
      (fun i => true && (testIdx seed frac y).contains i) =
      (testIdx seed frac y).length := by
    rw [← countP_range_testIdx seed frac y]
    exact List.countP_congr (fun i _ => by simp)
  have h3 : (List.range y.length).countP
      (fun i => !(testIdx seed frac y).contains i) =
      (List.range y.length).countP
      (fun i => true && !(testIdx seed frac y).contains i) :=
    List.countP_congr (fun i _ => by simp)
  omega

/-! ### Class counts of the two partitions -/

theorem y_test_count (seed : Nat) (frac : Rat) (y : List Rat) {c : Rat}
    (hc : c ∈ uniq y) :
    (selectVals y (testIdx seed frac y)).count c =
      min (nTest frac (y.count c)) (y.count c) := by
  rw [selectVals_count, count_testIdx seed frac y hc, classBlock_length]

theorem y_test_length (seed : Nat) (frac : Rat) (y : List Rat) :
    (selectVals y (testIdx seed frac y)).length =
      ((uniq y).map (fun c => min (nTest frac (y.count c)) (y.count c))).sum := by
  rw [selectVals_length, testIdx_length]
  exact congrArg List.sum
    (List.map_congr_left (fun c _ => classBlock_length seed frac y c))

theorem y_train_count (seed : Nat) (frac : Rat) (y : List Rat) {c : Rat}
    (hc : c ∈ uniq y) :
    (selectVals y (trainIdx seed frac y)).count c =
      y.count c - min (nTest frac (y.count c)) (y.count c) := by
  rw [selectVals_count, count_trainIdx seed frac y hc, classBlock_length]

theorem y_train_length (seed : Nat) (frac : Rat) (y : List Rat) :
    (selectVals y (trainIdx seed frac y)).length =
      y.length - (selectVals y (testIdx seed frac y)).length := by
  rw [selectVals_length, selectVals_length, trainIdx_length]

theorem sum_map_filter_ne {cs : List Rat} {a : Rat} (f : Rat → Nat)
    (hnd : cs.Nodup) (ha : a ∈ cs) :
    (cs.map f).sum = f a + ((cs.filter (fun b => !(b == a))).map f).sum := by
  induction cs with
  | nil => simp at ha
  | cons b cs ih =>
    rcases List.mem_cons.mp ha with rfl | hin
    · have hnb : ∀ x ∈ cs, x ≠ a := fun x hx e =>
        (List.nodup_cons.mp hnd).1 (e ▸ hx)
      have hfe : cs.filter (fun x => !(x == a)) = cs :=
        List.filter_eq_self.mpr (fun x hx => by simp [hnb x hx])
      rw [List.map_cons, List.sum_cons, List.filter_cons_of_neg (by simp), hfe]
    · have hba : b ≠ a := fun e => (List.nodup_cons.mp hnd).1 (e ▸ hin)
      rw [List.map_cons, List.sum_cons, ih (List.nodup_cons.mp hnd).2 hin,
        List.filter_cons_of_pos (by simp [hba]), List.map_cons, List.sum_cons]
      omega

theorem sum_count_uniq (y : List Rat) :
    ((uniq y).map (fun c => y.count c)).sum = y.length := by
  induction y with
  | nil => rfl
  | cons a as ih =>
    rw [uniq, List.map_cons, List.sum_cons]
    have hcnt : ∀ c, (a :: as).count c = as.count c + if a == c then 1 else 0 :=
      fun c => List.count_cons c a as
    have hone : (a :: as).count a = as.count a + 1 := by
      rw [hcnt a]
      simp
    rw [hone]
    have hmap : ((uniq as).filter (fun b => !(b == a))).map (fun c => (a :: as).count c) =
        ((uniq as).filter (fun b => !(b == a))).map (fun c => as.count c) := by
      apply List.map_congr_left
      intro c hcmem
      have hcafalse : (c == a) = false := by
        have h2 := (List.mem_filter.mp hcmem).2
        simpa using h2
      have hca : c ≠ a := by simpa using hcafalse
      have hac : ¬(a == c) = true := by
        simp only [beq_iff_eq]
        exact fun e => hca e.symm
      rw [hcnt c, if_neg hac]
      omega
    rw [hmap]
    by_cases hmem : a ∈ as
    · have huniq : a ∈ uniq as := mem_uniq.mpr hmem
      have hsplit : ((uniq as).map (fun c => as.count c)).sum =
          as.count a + (((uniq as).filter (fun b => !(b == a))).map
            (fun c => as.count c)).sum :=
        sum_map_filter_ne (fun c => as.count c) (nodup_uniq as) huniq
      rw [List.length_cons, ← ih]
      omega
    · have hcz : as.count a = 0 := List.count_eq_zero.mpr hmem
      have hfe : (uniq as).filter (fun b => !(b == a)) = uniq as :=
        List.filter_eq_self.mpr (fun x hx => by
          simp only [Bool.not_eq_eq_eq_not, Bool.not_true, beq_eq_false_iff_ne]
          exact fun e => hmem (e ▸ mem_uniq.mp hx))
      rw [List.length_cons, ← ih, hfe, hcz]
      omega

/-! ### Ratio preservation of the stratified split -/

theorem nTest_eq_of_int {frac : Rat} {n m : Nat} (h : frac * (n : Rat) = (m : Rat)) :
    nTest frac n = m := by
  rw [nTest, h, Int.ceil_natCast]
  exact Int.toNat_natCast m

/-- Under a nonnegative fraction at most 1 whose product with every class
count is a natural number, the stratified split puts exactly
`frac * (y.count c)` rows of every class `c` into the test partition, and
both partitions preserve every class's ratio (stated multiplicatively). -/
theorem strat_preserves_ratio (seed : Nat) (frac : Rat) (y : List Rat)
    (h0 : 0 ≤ frac) (h1 : frac ≤ 1)
    (hint : ∀ c ∈ uniq y, ∃ m : Nat, frac * (y.count c : Rat) = (m : Rat)) :
    ∀ c ∈ uniq y,
      ((selectVals y (testIdx seed frac y)).count c : Rat) = frac * (y.count c : Rat) ∧
      ((selectVals y (testIdx seed frac y)).count c : Rat) * (y.length : Rat) =
        (y.count c : Rat) * ((selectVals y (testIdx seed frac y)).length : Rat) ∧
      ((selectVals y (trainIdx seed frac y)).count c : Rat) * (y.length : Rat) =
        (y.count c : Rat) * ((selectVals y (trainIdx seed frac y)).length : Rat) := by
  have hminv : ∀ c : Rat, (∃ m : Nat, frac * (y.count c : Rat) = (m : Rat)) →
      ((min (nTest frac (y.count c)) (y.count c) : Nat) : Rat) =
        frac * (y.count c : Rat) := by
    rintro c ⟨m, hm⟩
    have hmn : (m : Rat) ≤ (y.count c : Rat) := by
      rw [← hm]
      calc frac * (y.count c : Rat) ≤ 1 * (y.count c : Rat) :=
        mul_le_mul_of_nonneg_right h1 (by positivity)
      _ = (y.count c : Rat) := one_mul _
    have hle : m ≤ y.count c := by exact_mod_cast hmn
    rw [nTest_eq_of_int hm, Nat.min_eq_left hle, hm]
  have key : ∀ l : List Rat, (∀ c ∈ l, ∃ m : Nat, frac * (y.count c : Rat) = (m : Rat)) →
      (((l.map (fun c => min (nTest frac (y.count c)) (y.count c))).sum : Nat) : Rat) =
        frac * (((l.map (fun c => y.count c)).sum : Nat) : Rat) := by
    intro l
    induction l with
    | nil => intro _; simp
    | cons b bs ih =>
      intro hl
      rw [List.map_cons, List.sum_cons, List.map_cons, List.sum_cons,
        Nat.cast_add, Nat.cast_add, ih (fun c hc => hl c (List.mem_cons_of_mem _ hc)),
        hminv b (hl b (List.mem_cons_self _ _))]
      ring
  have htlen : ((selectVals y (testIdx seed frac y)).length : Rat) =
      frac * (y.length : Rat) := by
    rw [y_test_length, key (uniq y) hint, sum_count_uniq]
  have htestle : (selectVals y (testIdx seed frac y)).length ≤ y.length := by
    rw [y_test_length, ← sum_count_uniq y]
    exact List.sum_le_sum (fun c _ => Nat.min_le_right _ _)
  intro c hc
  obtain ⟨m, hm⟩ := hint c hc
  have hcnt : ((selectVals y (testIdx seed frac y)).count c : Rat) =
      frac * (y.count c : Rat) := by
    rw [y_test_count seed frac y hc]
    exact hminv c ⟨m, hm⟩
  refine ⟨hcnt, ?_, ?_⟩
  · rw [hcnt, htlen]
    ring
  · have hcle : min (nTest frac (y.count c)) (y.count c) ≤ y.count c :=
      Nat.min_le_right _ _
    have htr : ((selectVals y (trainIdx seed frac y)).count c : Rat) =
        (y.count c : Rat) - frac * (y.count c : Rat) := by
      rw [y_train_count seed frac y hc, Nat.cast_sub hcle]
      rw [hminv c ⟨m, hm⟩]
    have htrlen : ((selectVals y (trainIdx seed frac y)).length : Rat) =
        (y.length : Rat) - frac * (y.length : Rat) := by
      rw [y_train_length, Nat.cast_sub htestle, htlen]
    rw [htr, htrlen]
    ring

/-! ### DataFrame, path and grid lemmas -/

theorem selectRows_colNames (d : DF) (idx : List Nat) :
    (d.selectRows idx).colNames = d.colNames := by
  simp [DF.selectRows, DF.colNames]

theorem dropExtraCols_colNames {xval x : DF} {c : String} :
    c ∈ (dropExtraCols xval x).colNames ↔ c ∈ xval.colNames ∧ c ∈ x.colNames := by
  simp only [dropExtraCols, DF.colNames, List.mem_map, List.mem_filter]
  constructor
  · rintro ⟨p, ⟨hp, hcont⟩, rfl⟩
    exact ⟨⟨p, hp, rfl⟩, by simpa using List.elem_iff.mp hcont⟩
  · rintro ⟨⟨p, hp, rfl⟩, hmem⟩
    exact ⟨p, ⟨hp, List.elem_iff.mpr (by simpa using hmem)⟩, rfl⟩

theorem colsDiff_eq_nil_iff {a b : List String} :
    colsDiff a b = [] ↔ ∀ c ∈ a, c ∈ b := by
  rw [colsDiff, List.dedup_eq_nil, List.filter_eq_nil_iff]
  constructor
  · intro h c hc
    simpa using h c hc
  · intro h c hc
    simpa using h c hc

theorem grid_getLast (cw : Option String) (seed : Nat) :
    (get_classification_model_grid cw seed).getLast? = some (lastCandidate cw seed) := rfl

theorem buildAmm_eq_map (ev : EvalFn) (cw : Option String) (seed : Nat)
    (inp : EvalInput) :
    buildAmm ev (get_classification_model_grid cw seed) inp =
      (get_classification_model_grid cw seed).map (fun c => (c.name, ev c inp)) := rfl

theorem buildAmm_lookup_last (ev : EvalFn) (cw : Option String) (seed : Nat)
    (inp : EvalInput) :
    (buildAmm ev (get_classification_model_grid cw seed) inp).lookup "SVC" =
      some (ev (lastCandidate cw seed) inp) := rfl

/-! ### Characterization of one successful label iteration -/

theorem mainGrid_getLast (a : Args) :
    (mainGrid a).getLast? = some (lastCandidate (mainGridArg a.balancing_option) a.seed) :=
  rfl

theorem mainGrid_buildAmm_lookup_last (ev : EvalFn) (a : Args) (inp : EvalInput) :
    (buildAmm ev (mainGrid a) inp).lookup "SVC" =
      some (ev (lastCandidate (mainGridArg a.balancing_option) a.seed) inp) := rfl

theorem labelStep_spec {ev : EvalFn} {a : Args} {X Y : DF} {ext : Option (DF × DF)}
    {g : Nat} {st : St} {l : String} {st' : St}
    (h : labelStep ev a X Y ext g st l = Except.ok st') :
    ∃ lo : LabelOut,
      st'.outs = st.outs ++ [lo] ∧
      st'.tables = lo.tablesAfter ∧
      st'.files = lo.filesAfter ∧
      st'.trace = (match ext with
          | none => st.trace ++ [Event.splitCall a.seed]
          | some _ => st.trace) ++ [Event.gridCall a.seed] ++
        (mainGrid a).map (fun c => Event.evalCall c.name a.seed) ∧
      lo.label = l ∧
      (match ext with
        | none =>
          lo.X_train = X.selectRows (trainIdx a.seed a.test_fraction (Y.col l)) ∧
          lo.X_test = X.selectRows (testIdx a.seed a.test_fraction (Y.col l)) ∧
          lo.y_train = selectVals (Y.col l) (trainIdx a.seed a.test_fraction (Y.col l)) ∧
          lo.y_test = selectVals (Y.col l) (testIdx a.seed a.test_fraction (Y.col l))
        | some (Xv, Yv) =>
          lo.X_train = X ∧ lo.X_test = Xv ∧ lo.y_train = Y.col l ∧
          Yv.columns.lookup l = some lo.y_test) ∧
      lo.all_model_metrics = buildAmm ev (mainGrid a)
        (mkEvalInput a lo.X_train lo.y_train lo.X_test lo.y_test g) ∧
      (∃ entries,
        jsonMetricDataE lo.all_model_metrics
          ((ev (lastCandidate (mainGridArg a.balancing_option) a.seed)
              (mkEvalInput a lo.X_train lo.y_train lo.X_test lo.y_test g)).val_metrics.map
            Prod.fst) = Except.ok entries ∧
        lo.jsonOut = Json.obj entries) ∧
      applyAllTestData l st.tables lo.all_model_metrics = Except.ok lo.tablesAfter ∧
      lo.filesAfter = writeCsvs a
        (fsWrite (fsAppend st.files (bestParamsPath a) ("=====\n" ++ l ++ "\n====="))
          (jsonPath a l) (FileData.json lo.jsonOut)) lo.tablesAfter := by
  cases ext with
  | none =>
    simp only [labelStep, mainGrid_getLast, lastCandidate,
      mainGrid_buildAmm_lookup_last] at h
    split at h
    · exact Except.noConfusion h
    · rename_i entries heq
      split at h
      · exact Except.noConfusion h
      · rename_i tables2 heq2
        simp only [Except.ok.injEq] at h
        subst h
        exact ⟨_, rfl, rfl, rfl, rfl, rfl, ⟨rfl, rfl, rfl, rfl⟩, rfl,
          ⟨entries, heq, rfl⟩, heq2, rfl⟩
  | some XvYv =>
    obtain ⟨Xv, Yv⟩ := XvYv
    cases hyv : Yv.columns.lookup l with
    | none =>
      simp only [labelStep, hyv] at h
      exact Except.noConfusion h
    | some yv =>
      simp only [labelStep, hyv, mainGrid_getLast, lastCandidate,
        mainGrid_buildAmm_lookup_last] at h
      split at h
      · exact Except.noConfusion h
      · rename_i entries heq
        split at h
        · exact Except.noConfusion h
        · rename_i tables2 heq2
          simp only [Except.ok.injEq] at h
          subst h
          exact ⟨_, rfl, rfl, rfl, rfl, rfl, ⟨rfl, rfl, rfl, hyv⟩, rfl,
            ⟨entries, heq, rfl⟩, heq2, rfl⟩

/-! ### Invariants along the label loop -/

theorem runLabels_inv {ev : EvalFn} {a : Args} {X Y : DF} {ext : Option (DF × DF)}
    {g : Nat} (I : St → Prop)
    (hstep : ∀ st l st', labelStep ev a X Y ext g st l = Except.ok st' → I st → I st') :
    ∀ (ls : List String) (st st' : St),
      runLabels ev a X Y ext g ls st = Except.ok st' → I st → I st' := by
  intro ls
  induction ls with
  | nil =>
    intro st st' h hI
    simp only [runLabels, Except.ok.injEq] at h
    exact h ▸ hI
  | cons l ls ih =>
    intro st st' h hI
    cases hst : labelStep ev a X Y ext g st l with
    | ok st2 =>
      simp only [runLabels, hst] at h
      exact ih st2 st' h (hstep st l st2 hst hI)
    | error e =>
      simp only [runLabels, hst] at h
      exact Except.noConfusion h

theorem mainRun_ok_elim {ev : EvalFn} {a : Args} {X Y Xval Yval : DF} {g0 : Nat}
    {out : RunOut} (h : mainRun ev a X Y Xval Yval g0 = Except.ok out) :
    ∃ st : St,
      out = ⟨st.outs, st.tables, st.files, st.trace⟩ ∧
      ((a.external_testset = true ∧
        colsDiff X.colNames (dropExtraCols Xval X).colNames = [] ∧
        runLabels ev a X Y (some (dropExtraCols Xval X, Yval)) a.seed Y.colNames
          (initStExt a) = Except.ok st) ∨
       (a.external_testset = false ∧
        runLabels ev a X Y none a.seed Y.colNames (initSt a) = Except.ok st)) := by
  by_cases hext : a.external_testset
  · simp only [mainRun, hext, if_true] at h
    by_cases hdiff : colsDiff X.colNames (dropExtraCols Xval X).colNames = []
    · rw [if_pos hdiff] at h
      cases hrun : runLabels ev a X Y (some (dropExtraCols Xval X, Yval)) a.seed
          Y.colNames (initStExt a) with
      | ok st =>
        rw [hrun] at h
        simp only [Except.ok.injEq] at h
        exact ⟨st, h.symm, Or.inl ⟨hext, hdiff, rfl⟩⟩
      | error e =>
        rw [hrun] at h
        exact Except.noConfusion h
    · rw [if_neg hdiff] at h
      exact Except.noConfusion h
  · have hextf : a.external_testset = false := by simpa using hext
    simp only [mainRun, hextf, Bool.false_eq_true, if_false] at h
    cases hrun : runLabels ev a X Y none a.seed Y.colNames (initSt a) with
    | ok st =>
      rw [hrun] at h
      simp only [Except.ok.injEq] at h
      exact ⟨st, h.symm, Or.inr ⟨hextf, rfl⟩⟩
    | error e =>
      rw [hrun] at h
      exact Except.noConfusion h

theorem mainRun_assert_error {ev : EvalFn} {a : Args} {X Y Xval Yval : DF} {g0 : Nat}
    (hext : a.external_testset = true)
    (hfail : colsDiff X.colNames (dropExtraCols Xval X).colNames ≠ []) :
    mainRun ev a X Y Xval Yval g0 =
      Except.error "AssertionError: Train data includes columns that are missing in val data" := by
  simp only [mainRun, hext, if_true]
  rw [if_neg hfail]

theorem getD_mem {α : Type} [Inhabited α] {l : List α} {k : Nat} (h : k < l.length) :
    l.getD k default ∈ l := by
  rw [List.getD_eq_getElem?_getD, List.getElem?_eq_getElem h]
  exact List.getElem_mem h

/-- What holds of every completed label record of a successful run: the
per-model results come from evaluating the grid on that label's split, and
the split is the stratified one (internal mode) or the reconciled external
pair (external mode). -/
def LabelSpec (ev : EvalFn) (a : Args) (X Y Xval Yval : DF) (lo : LabelOut) : Prop :=
  lo.all_model_metrics = buildAmm ev (mainGrid a)
    (mkEvalInput a lo.X_train lo.y_train lo.X_test lo.y_test a.seed) ∧
  ((a.external_testset = false ∧
    lo.X_train = X.selectRows (trainIdx a.seed a.test_fraction (Y.col lo.label)) ∧
    lo.X_test = X.selectRows (testIdx a.seed a.test_fraction (Y.col lo.label)) ∧
    lo.y_train = selectVals (Y.col lo.label) (trainIdx a.seed a.test_fraction (Y.col lo.label)) ∧
    lo.y_test = selectVals (Y.col lo.label) (testIdx a.seed a.test_fraction (Y.col lo.label))) ∨
   (a.external_testset = true ∧
    colsDiff X.colNames (dropExtraCols Xval X).colNames = [] ∧
    lo.X_train = X ∧ lo.X_test = dropExtraCols Xval X ∧
    lo.y_train = Y.col lo.label ∧
    Yval.columns.lookup lo.label = some lo.y_test))

theorem mainRun_labels_spec {ev : EvalFn} {a : Args} {X Y Xval Yval : DF} {g0 : Nat}
    {out : RunOut} (h : mainRun ev a X Y Xval Yval g0 = Except.ok out) :
    ∀ lo ∈ out.labels, LabelSpec ev a X Y Xval Yval lo := by
  obtain ⟨st, hout, hcase⟩ := mainRun_ok_elim h
  rcases hcase with ⟨hext, hdiff, hrun⟩ | ⟨hext, hrun⟩
  · have hinv := runLabels_inv (fun s => ∀ lo ∈ s.outs, LabelSpec ev a X Y Xval Yval lo)
      ?_ Y.colNames _ _ hrun (by simp [initStExt])
    · rw [hout]
      exact hinv
    · intro st1 l st2 hstep hI lo hlo
      obtain ⟨lo0, houts, _, _, _, hlab, hmode, hamm, _, _, _⟩ := labelStep_spec hstep
      rw [houts] at hlo
      rcases List.mem_append.mp hlo with hold | hnew
      · exact hI lo hold
      · have hlo0 : lo = lo0 := by simpa using hnew
        subst hlo0
        obtain ⟨h1, h2, h3, h4⟩ := hmode
        refine ⟨hamm, Or.inr ⟨hext, hdiff, h1, h2, ?_, ?_⟩⟩
        · rw [hlab]
          exact h3
        · rw [hlab]
          exact h4
  · have hinv := runLabels_inv (fun s => ∀ lo ∈ s.outs, LabelSpec ev a X Y Xval Yval lo)
      ?_ Y.colNames _ _ hrun (by simp [initSt])
    · rw [hout]
      exact hinv
    · intro st1 l st2 hstep hI lo hlo
      obtain ⟨lo0, houts, _, _, _, hlab, hmode, hamm, _, _, _⟩ := labelStep_spec hstep
      rw [houts] at hlo
      rcases List.mem_append.mp hlo with hold | hnew
      · exact hI lo hold
      · have hlo0 : lo = lo0 := by simpa using hnew
        subst hlo0
        obtain ⟨h1, h2, h3, h4⟩ := hmode
        refine ⟨hamm, Or.inl ⟨hext, ?_, ?_, ?_, ?_⟩⟩
        · rw [hlab]; exact h1
        · rw [hlab]; exact h2
        · rw [hlab]; exact h3
        · rw [hlab]; exact h4

/-! ### Claims -/

/-- C1: in external-validation mode, the reconciliation first drops from
`X_val` exactly those columns absent from `X` (first conjunct), and if a
column of `X` is still missing from `X_val` afterwards, the whole run aborts
with the fatal schema-mismatch `AssertionError` — `mainRun` returns an error
and never reaches model evaluation (second conjunct). -/
theorem claim_C1 (ev : EvalFn) (a : Args) (X Y Xval Yval : DF) (g0 : Nat)
    (c0 : String) (hext : a.external_testset = true)
    (hc0 : c0 ∈ X.colNames) (hmiss : c0 ∉ (dropExtraCols Xval X).colNames) :
    (∀ c, c ∈ (dropExtraCols Xval X).colNames ↔ c ∈ Xval.colNames ∧ c ∈ X.colNames) ∧
    mainRun ev a X Y Xval Yval g0 =
      Except.error "AssertionError: Train data includes columns that are missing in val data" := by
  refine ⟨fun c => dropExtraCols_colNames, ?_⟩
  apply mainRun_assert_error hext
  intro hnil
  exact hmiss (colsDiff_eq_nil_iff.mp hnil c0 hc0)

/-- C2: in both split modes, every label iteration of a successful run hands
the single-model evaluator train and test feature matrices with identical
column sets. -/
theorem claim_C2 (ev : EvalFn) (a : Args) (X Y Xval Yval : DF) (g0 : Nat)
    (out : RunOut) (k : Nat) (c : String)
    (h : mainRun ev a X Y Xval Yval g0 = Except.ok out) (hk : k < out.labels.length) :
    (c ∈ (out.labels.getD k default).X_train.colNames ↔
      c ∈ (out.labels.getD k default).X_test.colNames) := by
  have hlo := mainRun_labels_spec h _ (getD_mem hk)
  rcases hlo.2 with ⟨_, hXtr, hXte, _, _⟩ | ⟨_, hdiff, hXtr, hXte, _, _⟩
  · rw [hXtr, hXte, selectRows_colNames, selectRows_colNames]
  · rw [hXtr, hXte]
    constructor
    · intro hcX
      exact colsDiff_eq_nil_iff.mp hdiff c hcX
    · intro hcXv
      exact (dropExtraCols_colNames.mp hcXv).2

/-- C6: the model catalog that each label iteration requests (`mainGrid`,
lines 99-100) carries balanced class weights on every estimator that
supports them exactly when the configured balancing option is
`class_weight` (and no class weighting otherwise), and carries the run seed
on every stochastic estimator. -/
theorem claim_C6 (a : Args) (c : Candidate) (hc : c ∈ mainGrid a) :
    (c.supportsClassWeight = true →
      c.classWeight = if a.balancing_option = "class_weight" then some "balanced" else none) ∧
    (c.stochastic = true → c.seed = a.seed) := by
  simp only [mainGrid, get_classification_model_grid, List.mem_cons,
    List.mem_singleton, List.not_mem_nil, or_false] at hc
  rcases hc with rfl | rfl | rfl | rfl <;> simp [mainGridArg]

/-- An event that records one of the three seed-consuming calls, carrying
the run seed. -/
def stochEvent (a : Args) (e : Event) : Prop :=
  e = Event.splitCall a.seed ∨ e = Event.gridCall a.seed ∨
    ∃ n, e = Event.evalCall n a.seed

/-- C8: the run's outcome is independent of the ambient global RNG state
`g0` — lines 23-24 reseed the global NumPy/Python generators from
`args.seed` before anything else — and the trace of a successful run starts
with exactly those two global seedings and otherwise contains only the
reconciliation marker and seed-consuming calls (split, grid, each
single-model evaluation) that all receive `args.seed`. -/
theorem claim_C8 (ev : EvalFn) (a : Args) (X Y Xval Yval : DF) (g0 g1 : Nat)
    (out : RunOut) (h : mainRun ev a X Y Xval Yval g0 = Except.ok out) :
    mainRun ev a X Y Xval Yval g0 = mainRun ev a X Y Xval Yval g1 ∧
    (∃ rest, out.trace = [Event.npSeed a.seed, Event.pySeed a.seed] ++ rest ∧
      ∀ e ∈ rest, e = Event.reconcileEv ∨ stochEvent a e) := by
  constructor
  · rfl
  · obtain ⟨st, hout, hcase⟩ := mainRun_ok_elim h
    have hstep : ∀ st1 l st2, labelStep ev a X Y
        (if a.external_testset then some (dropExtraCols Xval X, Yval) else none)
        a.seed st1 l = Except.ok st2 → True := fun _ _ _ _ => trivial
    have key : ∀ (ext : Option (DF × DF)) (st0 st1 : St),
        runLabels ev a X Y ext a.seed Y.colNames st0 = Except.ok st1 →
        (∃ rest, st0.trace = [Event.npSeed a.seed, Event.pySeed a.seed] ++ rest ∧
          ∀ e ∈ rest, e = Event.reconcileEv ∨ stochEvent a e) →
        (∃ rest, st1.trace = [Event.npSeed a.seed, Event.pySeed a.seed] ++ rest ∧
          ∀ e ∈ rest, e = Event.reconcileEv ∨ stochEvent a e) := by
      intro ext st0 st1 hrun
      refine runLabels_inv (fun s =>
        ∃ rest, s.trace = [Event.npSeed a.seed, Event.pySeed a.seed] ++ rest ∧
          ∀ e ∈ rest, e = Event.reconcileEv ∨ stochEvent a e) ?_ Y.colNames st0 st1 hrun
      intro s1 l s2 hs ⟨rest, htr, hall⟩
      obtain ⟨lo0, _, _, _, htr2, _, _, _, _, _, _⟩ := labelStep_spec hs
      cases ext with
      | none =>
        refine ⟨rest ++ [Event.splitCall a.seed] ++ [Event.gridCall a.seed] ++
          (mainGrid a).map (fun c => Event.evalCall c.name a.seed), ?_, ?_⟩
        · rw [htr2, htr]
          simp
        · intro e he
          rcases List.mem_append.mp he with h12 | hmap
          · rcases List.mem_append.mp h12 with h1 | hgrid
            · rcases List.mem_append.mp h1 with hrest | hsplit
              · exact hall e hrest
              · exact Or.inr (Or.inl (List.mem_singleton.mp hsplit))
            · exact Or.inr (Or.inr (Or.inl (List.mem_singleton.mp hgrid)))
          · obtain ⟨cnd, _, hcnd⟩ := List.mem_map.mp hmap
            exact Or.inr (Or.inr (Or.inr ⟨cnd.name, hcnd.symm⟩))
      | some p =>
        refine ⟨rest ++ [Event.gridCall a.seed] ++
          (mainGrid a).map (fun c => Event.evalCall c.name a.seed), ?_, ?_⟩
        · rw [htr2, htr]
          simp
        · intro e he
          rcases List.mem_append.mp he with h1 | hmap
          · rcases List.mem_append.mp h1 with hrest | hgrid
            · exact hall e hrest
            · exact Or.inr (Or.inr (Or.inl (List.mem_singleton.mp hgrid)))
          · obtain ⟨cnd, _, hcnd⟩ := List.mem_map.mp hmap
            exact Or.inr (Or.inr (Or.inr ⟨cnd.name, hcnd.symm⟩))
    rcases hcase with ⟨_, _, hrun⟩ | ⟨_, hrun⟩
    · have := key _ _ _ hrun ⟨[Event.reconcileEv], rfl, by simp⟩
      rw [hout]
      exact this
    · have := key _ _ _ hrun ⟨[], rfl, by simp⟩
      rw [hout]
      exact this

/-- C9: every completed label of a successful run stores one
`(val_metrics, test_metrics, curves)` entry per catalog candidate, keyed by
the estimator class name and in catalog order — provided (as the data model
requires) that the class names in the catalog are unique. -/
theorem claim_C9 (ev : EvalFn) (a : Args) (X Y Xval Yval : DF) (g0 : Nat)
    (out : RunOut) (k : Nat)
    (h : mainRun ev a X Y Xval Yval g0 = Except.ok out) (hk : k < out.labels.length)
    (hnodup : ((mainGrid a).map Candidate.name).Nodup) :
    (out.labels.getD k default).all_model_metrics =
      (mainGrid a).map (fun c => (c.name, ev c
        (mkEvalInput a (out.labels.getD k default).X_train
          (out.labels.getD k default).y_train (out.labels.getD k default).X_test
          (out.labels.getD k default).y_test a.seed))) := by
  have hlo := mainRun_labels_spec h _ (getD_mem hk)
  rw [hlo.1]
  exact buildAmm_eq_map ev (mainGridArg a.balancing_option) a.seed _

/-- C10: in external-validation mode, schema reconciliation happens exactly
once, before the label loop (trace conjuncts), and it leaves `X`, `Y` and
`Y_val` untouched: every label iteration trains on the original `X` with
labels read from the original `Y`, tests on the one reconciled matrix
`dropExtraCols X_val X`, and reads its test labels from the original
`Y_val`. -/
theorem claim_C10 (ev : EvalFn) (a : Args) (X Y Xval Yval : DF) (g0 : Nat)
    (out : RunOut) (k : Nat)
    (h : mainRun ev a X Y Xval Yval g0 = Except.ok out)
    (hext : a.external_testset = true) (hk : k < out.labels.length) :
    (out.trace.take 3 =
      [Event.npSeed a.seed, Event.pySeed a.seed, Event.reconcileEv] ∧
     Event.reconcileEv ∉ out.trace.drop 3) ∧
    (out.labels.getD k default).X_train = X ∧
    (out.labels.getD k default).X_test = dropExtraCols Xval X ∧
    (out.labels.getD k default).y_train = Y.col (out.labels.getD k default).label ∧
    Yval.columns.lookup (out.labels.getD k default).label =
      some (out.labels.getD k default).y_test := by
  have hlo := mainRun_labels_spec h _ (getD_mem hk)
  rcases hlo.2 with ⟨hint, _⟩ | ⟨_, _, hXtr, hXte, hytr, hyte⟩
  · rw [hext] at hint
    exact absurd hint (by simp)
  · refine ⟨?_, hXtr, hXte, hytr, hyte⟩
    obtain ⟨st, hout, hcase⟩ := mainRun_ok_elim h
    rcases hcase with ⟨_, _, hrun⟩ | ⟨hintf, _⟩
    · have key : ∀ st0 st1 : St,
          runLabels ev a X Y (some (dropExtraCols Xval X, Yval)) a.seed Y.colNames
            st0 = Except.ok st1 →
          (∃ rest, st0.trace =
            [Event.npSeed a.seed, Event.pySeed a.seed, Event.reconcileEv] ++ rest ∧
            Event.reconcileEv ∉ rest) →
          (∃ rest, st1.trace =
            [Event.npSeed a.seed, Event.pySeed a.seed, Event.reconcileEv] ++ rest ∧
            Event.reconcileEv ∉ rest) := by
        intro st0 st1 hrun2
        refine runLabels_inv (fun s =>
          ∃ rest, s.trace =
            [Event.npSeed a.seed, Event.pySeed a.seed, Event.reconcileEv] ++ rest ∧
            Event.reconcileEv ∉ rest) ?_ Y.colNames st0 st1 hrun2
        intro s1 l s2 hs ⟨rest, htr, hnor⟩
        obtain ⟨lo0, _, _, _, htr2, _, _, _, _, _, _⟩ := labelStep_spec hs
        refine ⟨rest ++ [Event.gridCall a.seed] ++
          (mainGrid a).map (fun c => Event.evalCall c.name a.seed), ?_, ?_⟩
        · rw [htr2, htr]
          simp
        · intro hmem
          rcases List.mem_append.mp hmem with h1 | hmap
          · rcases List.mem_append.mp h1 with hrest | hgrid
            · exact hnor hrest
            · exact Event.noConfusion (List.mem_singleton.mp hgrid)
          · obtain ⟨cnd, _, hcnd⟩ := List.mem_map.mp hmap
            exact Event.noConfusion hcnd
      obtain ⟨rest, htr, hnor⟩ := key _ _ hrun ⟨[], rfl, by simp⟩
      rw [hout]
      refine ⟨?_, ?_⟩
      · simp [htr]
      · simpa [htr] using hnor
    · rw [hext] at hintf
      exact absurd hintf (by simp)

/-- C3: in internal-split mode, every label iteration of a successful run
splits `(X, y)` with the modelled `train_test_split` at the configured test
fraction and the run seed (first conjunct), and — whenever the fraction lies
in `[0, 1]` and cuts every class count to a whole number of rows — both
partitions preserve the label's class ratio, stated multiplicatively as
`count_c(part) * |y| = count_c(y) * |part|` (second conjunct). -/
theorem claim_C3 (ev : EvalFn) (a : Args) (X Y Xval Yval : DF) (g0 : Nat)
    (out : RunOut) (k : Nat)
    (h : mainRun ev a X Y Xval Yval g0 = Except.ok out)
    (hint : a.external_testset = false) (hk : k < out.labels.length)
    (h0 : 0 ≤ a.test_fraction) (h1 : a.test_fraction ≤ 1)
    (hdiv : ∀ c ∈ uniq (Y.col (out.labels.getD k default).label),
      ∃ m : Nat, a.test_fraction *
        ((Y.col (out.labels.getD k default).label).count c : Rat) = (m : Rat)) :
    ((out.labels.getD k default).X_train, (out.labels.getD k default).X_test,
      (out.labels.getD k default).y_train, (out.labels.getD k default).y_test) =
      train_test_split X (Y.col (out.labels.getD k default).label)
        a.test_fraction a.seed ∧
    ∀ c ∈ uniq (Y.col (out.labels.getD k default).label),
      (((out.labels.getD k default).y_test.count c : Rat) *
          ((Y.col (out.labels.getD k default).label).length : Rat) =
        ((Y.col (out.labels.getD k default).label).count c : Rat) *
          ((out.labels.getD k default).y_test.length : Rat)) ∧
      (((out.labels.getD k default).y_train.count c : Rat) *
          ((Y.col (out.labels.getD k default).label).length : Rat) =
        ((Y.col (out.labels.getD k default).label).count c : Rat) *
          ((out.labels.getD k default).y_train.length : Rat)) := by
  have hlo := mainRun_labels_spec h _ (getD_mem hk)
  rcases hlo.2 with ⟨_, hXtr, hXte, hytr, hyte⟩ | ⟨hext, _⟩
  · constructor
    · rw [train_test_split, hXtr, hXte, hytr, hyte]
    · intro c hc
      have hr := strat_preserves_ratio a.seed a.test_fraction
        (Y.col (out.labels.getD k default).label) h0 h1 hdiv c hc
      rw [hytr, hyte]
      exact ⟨hr.2.1, hr.2.2⟩
  · rw [hint] at hext
    exact absurd hext (by simp)

/-! ### Shape of the serialized JSON record -/

theorem exceptBind_ok {ε α β : Type} {x : Except ε α} {f : α → Except ε β} {b : β}
    (h : (x >>= f) = Except.ok b) : ∃ a, x = Except.ok a ∧ f a = Except.ok b := by
  cases x with
  | ok a => exact ⟨a, rfl, h⟩
  | error e => exact Except.noConfusion h

theorem mapM_ok_forall {α β : Type} {f : α → Except String β} {l : List α}
    {l2 : List β} (h : l.mapM f = Except.ok l2) :
    ∀ b ∈ l2, ∃ a ∈ l, f a = Except.ok b := by
  induction l generalizing l2 with
  | nil =>
    simp only [List.mapM_nil] at h
    cases h
    simp
  | cons a as ih =>
    rw [List.mapM_cons] at h
    obtain ⟨b0, hb0, h2⟩ := exceptBind_ok h
    obtain ⟨bs, hbs, h3⟩ := exceptBind_ok h2
    have : b0 :: bs = l2 := by
      simpa [pure, Except.pure] using h3
    subst this
    intro b hb
    rcases List.mem_cons.mp hb with rfl | hmem
    · exact ⟨a, List.mem_cons_self _ _, hb0⟩
    · obtain ⟨a2, ha2, hfa2⟩ := ih hbs b hmem
      exact ⟨a2, List.mem_cons_of_mem _ ha2, hfa2⟩

theorem mapM_ok_map_eq {α β γ : Type} {f : α → Except String β} {l : List α}
    {l2 : List β} (g1 : α → γ) (g2 : β → γ)
    (hfg : ∀ a b, f a = Except.ok b → g2 b = g1 a)
    (h : l.mapM f = Except.ok l2) : l2.map g2 = l.map g1 := by
  induction l generalizing l2 with
  | nil =>
    simp only [List.mapM_nil] at h
    cases h
    rfl
  | cons a as ih =>
    rw [List.mapM_cons] at h
    obtain ⟨b0, hb0, h2⟩ := exceptBind_ok h
    obtain ⟨bs, hbs, h3⟩ := exceptBind_ok h2
    have : b0 :: bs = l2 := by
      simpa [pure, Except.pure] using h3
    subst this
    rw [List.map_cons, List.map_cons, hfg a b0 hb0, ih hbs]

theorem cmEntryE_fst {p : String × EvalResult} {q : String × Json}
    (h : cmEntryE p = Except.ok q) : q.1 = p.1 := by
  rw [cmEntryE] at h
  split at h
  · cases h
    rfl
  · exact Except.noConfusion h
  · exact Except.noConfusion h

theorem metricEntryE_fst {mname : String} {p : String × EvalResult} {q : String × Json}
    (h : metricEntryE mname p = Except.ok q) : q.1 = p.1 := by
  rw [metricEntryE] at h
  split at h
  · split at h
    · cases h
      rfl
    · exact Except.noConfusion h
    · exact Except.noConfusion h
  · exact Except.noConfusion h

theorem cmEntryE_spec {p : String × EvalResult} {q : String × Json}
    (h : cmEntryE p = Except.ok q) :
    ∃ ms t, p.2.val_metrics.lookup "confusion_matrix" = some (MVal.mats ms) ∧
      p.2.test_metrics.lookup "confusion_matrix" = some (MVal.mat t) ∧
      q = (p.1, Json.arr [Json.arr (ms.map (fun m2 => jsonOfMat m2.tolist)),
        jsonOfMat t.tolist]) := by
  rw [cmEntryE] at h
  split at h
  · rename_i ms t hv ht
    cases h
    exact ⟨ms, t, hv, ht, rfl⟩
  · exact Except.noConfusion h
  · exact Except.noConfusion h

theorem jsonMetricDataE_spec {amm : List (String × EvalResult)} {names : List String}
    {entries : List (String × Json)}
    (h : jsonMetricDataE amm names = Except.ok entries) :
    entries.map Prod.fst = names ∧
    ∀ p ∈ entries, ∃ es, p.2 = Json.obj es ∧
      es.map Prod.fst = amm.map Prod.fst ∧
      (p.1 = "confusion_matrix" →
        ∀ q ∈ es, ∃ mn r ms t, (mn, r) ∈ amm ∧
          r.val_metrics.lookup "confusion_matrix" = some (MVal.mats ms) ∧
          r.test_metrics.lookup "confusion_matrix" = some (MVal.mat t) ∧
          q = (mn, Json.arr [Json.arr (ms.map (fun m2 => jsonOfMat m2.tolist)),
            jsonOfMat t.tolist])) := by
  induction names generalizing entries with
  | nil =>
    simp only [jsonMetricDataE] at h
    cases h
    exact ⟨rfl, by simp⟩
  | cons mname rest ih =>
    rw [jsonMetricDataE] at h
    by_cases hcm : mname = "confusion_matrix"
    · rw [if_pos hcm] at h
      cases hes : amm.mapM cmEntryE with
      | error e =>
        rw [hes] at h
        cases htail : jsonMetricDataE amm rest with
        | error e2 =>
          rw [htail] at h
          exact Except.noConfusion h
        | ok tail =>
          rw [htail] at h
          exact Except.noConfusion h
      | ok es =>
        rw [hes] at h
        cases htail : jsonMetricDataE amm rest with
        | error e =>
          rw [htail] at h
          exact Except.noConfusion h
        | ok tail =>
          rw [htail] at h
          simp only [Except.ok.injEq] at h
          subst h
          obtain ⟨htkeys, htall⟩ := ih htail
          refine ⟨by simp [htkeys], ?_⟩
          intro p hp
          rcases List.mem_cons.mp hp with rfl | hmem
          · refine ⟨es, rfl, ?_, ?_⟩
            · exact mapM_ok_map_eq Prod.fst Prod.fst
                (fun a b hb => cmEntryE_fst hb) hes
            · intro _ q hq
              obtain ⟨p2, hp2, hok⟩ := mapM_ok_forall hes q hq
              obtain ⟨ms, t, hv, ht, hq2⟩ := cmEntryE_spec hok
              exact ⟨p2.1, p2.2, ms, t, by simpa using hp2, hv, ht, hq2⟩
          · exact htall p hmem
    · rw [if_neg hcm] at h
      cases hes : amm.mapM (metricEntryE mname) with
      | error e =>
        rw [hes] at h
        cases htail : jsonMetricDataE amm rest with
        | error e2 =>
          rw [htail] at h
          exact Except.noConfusion h
        | ok tail =>
          rw [htail] at h
          exact Except.noConfusion h
      | ok es =>
        rw [hes] at h
        cases htail : jsonMetricDataE amm rest with
        | error e =>
          rw [htail] at h
          exact Except.noConfusion h
        | ok tail =>
          rw [htail] at h
          simp only [Except.ok.injEq] at h
          subst h
          obtain ⟨htkeys, htall⟩ := ih htail
          refine ⟨by simp [htkeys], ?_⟩
          intro p hp
          rcases List.mem_cons.mp hp with rfl | hmem
          · refine ⟨es, rfl, ?_, ?_⟩
            · exact mapM_ok_map_eq Prod.fst Prod.fst
                (fun a b hb => metricEntryE_fst hb) hes
            · intro hp1
              exact absurd hp1 hcm
          · exact htall p hmem

/-! ### Table cells, name indices and CSV files -/

theorem getCell_setCell_self (t : Table) (r c : String) (v : MVal) :
    (t.setCell r c v).getCell r c = some v :=
  lookup_dictInsert_self t.cells (r, c) v

theorem getCell_setCell_ne (t : Table) {r c r2 c2 : String} (v : MVal)
    (h : (r2, c2) ≠ (r, c)) : (t.setCell r c v).getCell r2 c2 = t.getCell r2 c2 :=
  lookup_dictInsert_ne t.cells v h

theorem setCell_rowNames (t : Table) (r c : String) (v : MVal) :
    (t.setCell r c v).rowNames = addNew t.rowNames r := rfl

theorem setCell_colNames (t : Table) (r c : String) (v : MVal) :
    (t.setCell r c v).colNames = addNew t.colNames c := rfl

theorem addNew_of_mem {l : List String} {x : String} (h : x ∈ l) :
    addNew l x = l := by
  rw [addNew, if_pos (List.elem_iff.mpr h)]

theorem mem_addNew (l : List String) (x y : String) :
    y ∈ addNew l x ↔ y ∈ l ∨ y = x := by
  rw [addNew]
  split
  · rename_i hx
    constructor
    · exact Or.inl
    · rintro (hy | rfl)
      · exact hy
      · exact List.elem_iff.mp hx
  · simp

theorem dedupF_append_singleton (l : List String) (x : String) :
    dedupF (l ++ [x]) = addNew (dedupF l) x := by
  rw [dedupF, dedupF, List.foldl_append]
  rfl

theorem foldl_addNew_absorb {l : List String} :
    ∀ {acc : List String}, (∀ x ∈ l, x ∈ acc) → l.foldl addNew acc = acc := by
  induction l with
  | nil => intro acc _; rfl
  | cons a as ih =>
    intro acc hall
    rw [List.foldl_cons, addNew_of_mem (hall a (List.mem_cons_self _ _))]
    exact ih (fun x hx => hall x (List.mem_cons_of_mem _ hx))

theorem foldl_addNew_mem (l : List String) :
    ∀ (acc : List String) (x : String), x ∈ acc → x ∈ l.foldl addNew acc := by
  induction l with
  | nil => intro acc x hx; exact hx
  | cons a as ih =>
    intro acc x hx
    rw [List.foldl_cons]
    exact ih _ x ((mem_addNew acc a x).mpr (Or.inl hx))

theorem foldl_addNew_nodup :
    ∀ (l acc : List String), acc.Nodup → (∀ x ∈ acc, x ∉ l) → l.Nodup →
      l.foldl addNew acc = acc ++ l := by
  intro l
  induction l with
  | nil =>
    intro acc _ _ _
    simp
  | cons a as ih =>
    intro acc hacc hdisj hl
    rw [List.foldl_cons]
    have hna : a ∉ acc := fun hc => hdisj a hc (List.mem_cons_self _ _)
    have hstep : addNew acc a = acc ++ [a] := by
      rw [addNew, if_neg (fun hc => hna (List.elem_iff.mp hc))]
    have hnodup2 : (acc ++ [a]).Nodup := by
      rw [List.nodup_append]
      refine ⟨hacc, by simp, ?_⟩
      intro x hx
      simp only [List.mem_singleton]
      rintro rfl
      exact hna hx
    have hdisj2 : ∀ x ∈ acc ++ [a], x ∉ as := by
      intro x hx
      rcases List.mem_append.mp hx with hx1 | hx2
      · exact fun hxs => hdisj x hx1 (List.mem_cons_of_mem _ hxs)
      · have hxa : x = a := by simpa using hx2
        subst hxa
        exact (List.nodup_cons.mp hl).1
    rw [hstep, ih (acc ++ [a]) hnodup2 hdisj2 (List.nodup_cons.mp hl).2,
      List.append_assoc, List.singleton_append]

theorem dedupF_eq_self_of_nodup {l : List String} (h : l.Nodup) : dedupF l = l := by
  rw [dedupF]
  simpa using foldl_addNew_nodup l [] (by simp) (by simp) h

theorem string_append_right_inj {p : String} {s1 s2 : String}
    (h : p ++ s1 = p ++ s2) : s1 = s2 := by
  apply String.ext
  have hd := congrArg String.data h
  rw [String.data_append, String.data_append] at hd
  exact List.append_cancel_left hd

theorem string_append_left_inj {t : String} {s1 s2 : String}
    (h : s1 ++ t = s2 ++ t) : s1 = s2 := by
  apply String.ext
  have hd := congrArg String.data h
  rw [String.data_append, String.data_append] at hd
  exact List.append_cancel_right hd

theorem csvPath_inj {a : Args} {m1 m2 : String} (h : csvPath a m1 = csvPath a m2) :
    m1 = m2 := by
  have hd := congrArg String.data h
  simp only [csvPath, String.data_append] at hd
  exact String.ext (List.append_cancel_left (List.append_cancel_right hd))

theorem data_getLast_csv (s : String) : (s ++ ".csv").data.getLast? = some 'v' := by
  rw [String.data_append, List.getLast?_append]
  rfl

theorem data_getLast_json (s : String) :
    (s ++ "/all_model_metrics.json").data.getLast? = some 'n' := by
  rw [String.data_append, List.getLast?_append]
  rfl

theorem csvPath_ne_jsonPath (a : Args) (metric label : String) :
    csvPath a metric ≠ jsonPath a label := by
  intro h
  have h1 : (csvPath a metric).data.getLast? = some 'v' :=
    data_getLast_csv (a.out_dir ++ "/data_frames/" ++ metric)
  have h2 : (jsonPath a label).data.getLast? = some 'n' :=
    data_getLast_json (a.out_dir ++ "/" ++ label)
  rw [h, h2] at h1
  exact absurd h1 (by decide)

theorem fsWrite_lookup_self (fs : FS) (path : String) (d : FileData) :
    (fsWrite fs path d).lookup path = some d :=
  lookup_dictInsert_self fs path d

theorem fsWrite_lookup_ne (fs : FS) {path p2 : String} (d : FileData)
    (h : p2 ≠ path) : (fsWrite fs path d).lookup p2 = fs.lookup p2 :=
  lookup_dictInsert_ne fs d h

theorem fsAppend_lookup_ne (fs : FS) {path p2 : String} (s : String)
    (h : p2 ≠ path) : (fsAppend fs path s).lookup p2 = fs.lookup p2 := by
  rw [fsAppend]
  split
  · exact lookup_dictInsert_ne fs _ h
  · exact lookup_dictInsert_ne fs _ h

theorem writeCsvs_lookup_notkey (a : Args) (fs : FS) (tables : List (String × Table))
    {p : String} (hp : ∀ mt ∈ tables, p ≠ csvPath a mt.1) :
    (writeCsvs a fs tables).lookup p = fs.lookup p := by
  induction tables generalizing fs with
  | nil => rfl
  | cons mt rest ih =>
    rw [writeCsvs, List.foldl_cons, ← writeCsvs]
    rw [ih (fsWrite fs (csvPath a mt.1) (FileData.text (tableToCsv mt.2)))
      (fun q hq => hp q (List.mem_cons_of_mem _ hq))]
    exact fsWrite_lookup_ne fs _ (hp mt (List.mem_cons_self _ _))

theorem writeCsvs_lookup_csv (a : Args) (fs : FS) (tables : List (String × Table))
    {metric : String} {t : Table} (hnd : (tables.map Prod.fst).Nodup)
    (ht : tables.lookup metric = some t) :
    (writeCsvs a fs tables).lookup (csvPath a metric) =
      some (FileData.text (tableToCsv t)) := by
  induction tables generalizing fs with
  | nil => exact absurd ht (by simp)
  | cons mt rest ih =>
    obtain ⟨m0, t0⟩ := mt
    rw [writeCsvs, List.foldl_cons, ← writeCsvs]
    rw [List.lookup_cons] at ht
    by_cases hm : metric = m0
    · subst hm
      simp only [beq_self_eq_true, Option.some.injEq] at ht
      subst ht
      rw [writeCsvs_lookup_notkey]
      · exact fsWrite_lookup_self fs _ _
      · intro q hq hc
        have hq1 : metric = q.1 := csvPath_inj hc
        have hmem : q.1 ∈ rest.map Prod.fst := List.mem_map_of_mem Prod.fst hq
        rw [← hq1] at hmem
        exact (List.nodup_cons.mp hnd).1 hmem
    · have hne : (metric == m0) = false := by simpa using hm
      simp only [hne] at ht
      exact ih _ (List.nodup_cons.mp hnd).2 ht

/-! ### Effect of one label on the run tables -/

theorem mem_keys_of_lookup [BEq κ] [LawfulBEq κ] {d : List (κ × α)} {k : κ} {v : α}
    (h : d.lookup k = some v) : k ∈ d.map Prod.fst :=
  List.mem_map_of_mem Prod.fst (lookup_mem h)

theorem applyTestData_keys {mname lbl : String} :
    ∀ {td : List (String × MVal)} {tables ts' : List (String × Table)},
      applyTestData mname lbl tables td = Except.ok ts' →
      ts'.map Prod.fst = tables.map Prod.fst := by
  intro td
  induction td with
  | nil =>
    intro tables ts' h
    simp only [applyTestData, Except.ok.injEq] at h
    rw [h]
  | cons p rest ih =>
    intro tables ts' h
    obtain ⟨metric, v⟩ := p
    rw [applyTestData] at h
    by_cases hcm : metric = "confusion_matrix"
    · rw [if_pos hcm] at h
      exact ih h
    · rw [if_neg hcm] at h
      cases hlk : tables.lookup metric with
      | none =>
        rw [hlk] at h
        exact Except.noConfusion h
      | some t =>
        rw [hlk] at h
        rw [ih h]
        exact map_fst_dictInsert_of_mem _ (mem_keys_of_lookup hlk)

theorem applyTestData_lookup {mname lbl : String} :
    ∀ {td : List (String × MVal)}, (td.map Prod.fst).Nodup →
    ∀ {tables ts' : List (String × Table)},
      applyTestData mname lbl tables td = Except.ok ts' →
    ∀ {metric : String} {t : Table}, metric ≠ "confusion_matrix" →
      tables.lookup metric = some t →
      ts'.lookup metric = some (match td.lookup metric with
        | some v => t.setCell mname (sanitizeLabel lbl) v
        | none => t) := by
  intro td
  induction td with
  | nil =>
    intro _ tables ts' h metric t _ ht
    simp only [applyTestData, Except.ok.injEq] at h
    rw [← h, ht]
    rfl
  | cons p rest ih =>
    intro hnd tables ts' h metric t hmcm ht
    obtain ⟨m0, v0⟩ := p
    rw [applyTestData] at h
    by_cases hcm : m0 = "confusion_matrix"
    · rw [if_pos hcm] at h
      have hne : metric ≠ m0 := fun he => hmcm (he.trans hcm)
      have := ih (by simpa using (List.nodup_cons.mp (by simpa using hnd)).2) h hmcm ht
      rw [this, List.lookup_cons]
      have hb : (metric == m0) = false := by simpa using hne
      rw [hb]
    · rw [if_neg hcm] at h
      cases hlk : tables.lookup m0 with
      | none =>
        rw [hlk] at h
        exact Except.noConfusion h
      | some t0 =>
        rw [hlk] at h
        by_cases hmm : metric = m0
        · subst hmm
          have ht0 : t0 = t := by
            rw [ht] at hlk
            exact (Option.some.injEq _ _).mp hlk.symm ▸ rfl
          have hrest : rest.lookup metric = none := by
            rw [List.lookup_eq_none_iff]
            intro q hq
            have : metric ∉ rest.map Prod.fst :=
              (List.nodup_cons.mp (by simpa using hnd)).1
            simp only [bne_iff_ne, ne_eq]
            intro he
            exact this (he ▸ List.mem_map_of_mem Prod.fst hq)
          have hnew : (dictInsert tables metric
              (t0.setCell mname (sanitizeLabel lbl) v0)).lookup metric =
              some (t0.setCell mname (sanitizeLabel lbl) v0) :=
            lookup_dictInsert_self _ _ _
          have := ih (List.nodup_cons.mp (by simpa using hnd)).2 h hmcm hnew
          rw [this, List.lookup_cons]
          simp only [beq_self_eq_true]
          rw [hrest, ht0]
        · have hnew : (dictInsert tables m0
              (t0.setCell mname (sanitizeLabel lbl) v0)).lookup metric =
              some t := by
            rw [lookup_dictInsert_ne _ _ hmm, ht]
          have := ih (List.nodup_cons.mp (by simpa using hnd)).2 h hmcm hnew
          rw [this, List.lookup_cons]
          have hb : (metric == m0) = false := by simpa using hmm
          rw [hb]

/-- The pure per-metric effect of one label's model results on one table:
for each model in order, write its test value for this metric into the cell
`(model, sanitized label)`. -/
def tableFold (metric lbl : String) (amm : List (String × EvalResult)) (t : Table) :
    Table :=
  amm.foldl (fun t2 p => match p.2.test_metrics.lookup metric with
    | some v => t2.setCell p.1 (sanitizeLabel lbl) v
    | none => t2) t

theorem applyAllTestData_keys {lbl : String} :
    ∀ {amm : List (String × EvalResult)} {tables ts' : List (String × Table)},
      applyAllTestData lbl tables amm = Except.ok ts' →
      ts'.map Prod.fst = tables.map Prod.fst := by
  intro amm
  induction amm with
  | nil =>
    intro tables ts' h
    simp only [applyAllTestData, Except.ok.injEq] at h
    rw [h]
  | cons p rest ih =>
    intro tables ts' h
    obtain ⟨mn, r⟩ := p
    rw [applyAllTestData] at h
    cases h1 : applyTestData mn lbl tables r.test_metrics with
    | error e =>
      rw [h1] at h
      exact Except.noConfusion h
    | ok ts1 =>
      rw [h1] at h
      rw [ih h, applyTestData_keys h1]

theorem applyAllTestData_lookup {lbl : String} :
    ∀ {amm : List (String × EvalResult)},
      (∀ p ∈ amm, (p.2.test_metrics.map Prod.fst).Nodup) →
    ∀ {tables ts' : List (String × Table)},
      applyAllTestData lbl tables amm = Except.ok ts' →
    ∀ {metric : String} {t : Table}, metric ≠ "confusion_matrix" →
      tables.lookup metric = some t →
      ts'.lookup metric = some (tableFold metric lbl amm t) := by
  intro amm
  induction amm with
  | nil =>
    intro _ tables ts' h metric t _ ht
    simp only [applyAllTestData, Except.ok.injEq] at h
    rw [← h, ht, tableFold]
    rfl
  | cons p rest ih =>
    intro hnd tables ts' h metric t hmcm ht
    obtain ⟨mn, r⟩ := p
    rw [applyAllTestData] at h
    cases h1 : applyTestData mn lbl tables r.test_metrics with
    | error e =>
      rw [h1] at h
      exact Except.noConfusion h
    | ok ts1 =>
      rw [h1] at h
      have hstep := applyTestData_lookup
        (hnd (mn, r) (List.mem_cons_self _ _)) h1 hmcm ht
      have := ih (fun q hq => hnd q (List.mem_cons_of_mem _ hq)) h hmcm hstep
      have hcons : tableFold metric lbl ((mn, r) :: rest) t =
          tableFold metric lbl rest (match r.test_metrics.lookup metric with
            | some v => t.setCell mn (sanitizeLabel lbl) v
            | none => t) := rfl
      rw [hcons]
      exact this

theorem tableFold_getCell_preserved {metric lbl : String} {mn : String} :
    ∀ {amm : List (String × EvalResult)}, (∀ p ∈ amm, p.1 ≠ mn) →
    ∀ t : Table, (tableFold metric lbl amm t).getCell mn (sanitizeLabel lbl) =
      t.getCell mn (sanitizeLabel lbl) := by
  intro amm
  induction amm with
  | nil => intro _ t; rfl
  | cons p rest ih =>
    intro hne t
    rw [tableFold, List.foldl_cons, ← tableFold]
    rw [ih (fun q hq => hne q (List.mem_cons_of_mem _ hq))]
    cases hlk : p.2.test_metrics.lookup metric with
    | none => rfl
    | some v =>
      exact getCell_setCell_ne t v (fun he =>
        hne p (List.mem_cons_self _ _) (congrArg Prod.fst he).symm)

theorem tableFold_getCell {metric lbl : String} :
    ∀ {amm : List (String × EvalResult)}, (amm.map Prod.fst).Nodup →
    ∀ {t : Table} {mn : String} {r : EvalResult} {v : MVal},
      (mn, r) ∈ amm → r.test_metrics.lookup metric = some v →
      (tableFold metric lbl amm t).getCell mn (sanitizeLabel lbl) = some v := by
  intro amm
  induction amm with
  | nil =>
    intro _ t mn r v hmem
    simp at hmem
  | cons p rest ih =>
    intro hnd t mn r v hmem hlk
    have hnd2 : (p.1 :: rest.map Prod.fst).Nodup := by
      rw [← List.map_cons]
      exact hnd
    rw [tableFold, List.foldl_cons, ← tableFold]
    rcases List.mem_cons.mp hmem with heq | hmem2
    · have hp1 : p.1 = mn := by rw [← heq]
      have hp2 : p.2 = r := by rw [← heq]
      rw [hp2, hlk, hp1]
      rw [tableFold_getCell_preserved (fun q hq hq1 => ?_) _]
      · exact getCell_setCell_self t mn (sanitizeLabel lbl) v
      · have hin : q.1 ∈ rest.map Prod.fst := List.mem_map_of_mem Prod.fst hq
        rw [hq1, ← hp1] at hin
        exact (List.nodup_cons.mp hnd2).1 hin
    · have hmn : p.1 ≠ mn := by
        intro he
        have hin : mn ∈ rest.map Prod.fst := List.mem_map_of_mem Prod.fst hmem2
        exact (List.nodup_cons.mp hnd2).1 (he ▸ hin)
      cases hlk2 : p.2.test_metrics.lookup metric with
      | none => exact ih (List.nodup_cons.mp hnd2).2 hmem2 hlk
      | some v2 => exact ih (List.nodup_cons.mp hnd2).2 hmem2 hlk

theorem tableFold_rowNames {metric lbl : String} :
    ∀ {amm : List (String × EvalResult)},
      (∀ p ∈ amm, ∃ v, p.2.test_metrics.lookup metric = some v) →
    ∀ t : Table, (tableFold metric lbl amm t).rowNames =
      (amm.map Prod.fst).foldl addNew t.rowNames := by
  intro amm
  induction amm with
  | nil => intro _ t; rfl
  | cons p rest ih =>
    intro hall t
    obtain ⟨v, hv⟩ := hall p (List.mem_cons_self _ _)
    rw [tableFold, List.foldl_cons, ← tableFold, hv, List.map_cons, List.foldl_cons]
    rw [ih (fun q hq => hall q (List.mem_cons_of_mem _ hq))]
    rfl

theorem addNew_idem (l : List String) (x : String) :
    addNew (addNew l x) x = addNew l x :=
  addNew_of_mem ((mem_addNew l x x).mpr (Or.inr rfl))

theorem tableFold_colNames {metric lbl : String} :
    ∀ {amm : List (String × EvalResult)},
      (∀ p ∈ amm, ∃ v, p.2.test_metrics.lookup metric = some v) → amm ≠ [] →
    ∀ t : Table, (tableFold metric lbl amm t).colNames =
      addNew t.colNames (sanitizeLabel lbl) := by
  intro amm
  induction amm with
  | nil =>
    intro _ hne
    exact absurd rfl hne
  | cons p rest ih =>
    intro hall _ t
    obtain ⟨v, hv⟩ := hall p (List.mem_cons_self _ _)
    rw [tableFold, List.foldl_cons, ← tableFold, hv]
    cases rest with
    | nil => rfl
    | cons q rest2 =>
      rw [ih (fun q2 hq2 => hall q2 (List.mem_cons_of_mem _ hq2)) (by simp) _]
      rw [setCell_colNames, addNew_idem]

/-! ### Facts about well-formed evaluator results -/

/-- The development-wide assumption on the abstract evaluator: every result
is well-formed in the sense of `ResOK`. -/
def EvalOK (ev : EvalFn) : Prop := ∀ c inp, ResOK (ev c inp)

/-- The metrics that get a run table at line 67. -/
def nonCmMetrics : List String :=
  all_classification_metrics_list.filter (fun m => !(m == "confusion_matrix"))

/-- The estimator class names of the catalog, in order. -/
def gridNames (a : Args) : List String := (mainGrid a).map Candidate.name

theorem initTables_keys : initTables.map Prod.fst = nonCmMetrics := rfl

theorem nonCm_nodup : nonCmMetrics.Nodup := by decide

theorem enum_nodup : all_classification_metrics_list.Nodup := by decide

theorem mem_nonCm {m : String} :
    m ∈ nonCmMetrics ↔ m ∈ all_classification_metrics_list ∧ m ≠ "confusion_matrix" := by
  rw [nonCmMetrics, List.mem_filter]
  simp

theorem gridNames_eq (a : Args) : gridNames a =
    ["LogisticRegression", "RandomForestClassifier", "KNeighborsClassifier", "SVC"] := rfl

theorem gridNames_nodup (a : Args) : (gridNames a).Nodup := by
  rw [gridNames_eq]
  decide

theorem buildAmm_keys (ev : EvalFn) (a : Args) (inp : EvalInput) :
    (buildAmm ev (mainGrid a) inp).map Prod.fst = gridNames a := rfl

theorem buildAmm_ne_nil (ev : EvalFn) (a : Args) (inp : EvalInput) :
    buildAmm ev (mainGrid a) inp ≠ [] := by
  intro h
  have h4 : (buildAmm ev (mainGrid a) inp).length = 4 := rfl
  rw [h] at h4
  exact absurd h4 (by decide)

theorem buildAmm_resOK {ev : EvalFn} (hev : EvalOK ev) (a : Args) (inp : EvalInput) :
    ∀ p ∈ buildAmm ev (mainGrid a) inp, ResOK p.2 := by
  intro p hp
  have hmap : buildAmm ev (mainGrid a) inp =
      (mainGrid a).map (fun c => (c.name, ev c inp)) := rfl
  rw [hmap] at hp
  obtain ⟨c, _, rfl⟩ := List.mem_map.mp hp
  exact hev c inp

theorem resOK_test_keys_nodup {r : EvalResult} (h : ResOK r) :
    (r.test_metrics.map Prod.fst).Nodup := by
  rw [h.2.1]
  exact enum_nodup

theorem resOK_test_lookup {r : EvalResult} (h : ResOK r) {metric : String}
    (hm : metric ∈ all_classification_metrics_list) (hcm : metric ≠ "confusion_matrix") :
    ∃ q : Rat, r.test_metrics.lookup metric = some (MVal.scalar q) := by
  have hmem : metric ∈ r.test_metrics.map Prod.fst := by
    rw [h.2.1]
    exact hm
  obtain ⟨v, hv⟩ := lookup_of_mem_keys hmem
  have hshape := h.2.2.2 (metric, v) (lookup_mem hv)
  rw [if_neg hcm] at hshape
  cases v with
  | scalar q => exact ⟨q, hv⟩
  | folds qs => exact absurd hshape (by simp [MVal.isScalar])
  | mat m2 => exact absurd hshape (by simp [MVal.isScalar])
  | mats ms => exact absurd hshape (by simp [MVal.isScalar])

theorem lookup_map_const {l : List String} {c : Table} {k : String} {t : Table}
    (h : (l.map (fun m => (m, c))).lookup k = some t) : t = c := by
  induction l with
  | nil => simp at h
  | cons a as ih =>
    rw [List.map_cons, List.lookup_cons] at h
    cases hk : (k == a) with
    | true =>
      rw [hk] at h
      exact (Option.some.injEq _ _).mp h.symm ▸ rfl
    | false =>
      rw [hk] at h
      exact ih h

/-! ### The run-level table/file invariant -/

/-- What holds of the `j`-th completed label's snapshots, where
`labelsSoFar` lists the labels processed up to and including it: every
non-confusion metric has one table whose columns are the sanitized labels so
far (first occurrences), whose rows are the catalog's class names, whose
cell at `(model, sanitized label)` holds the model's test value for the
metric, and whose CSV serialization sits at that metric's CSV path; the
label's JSON record sits at its JSON path and serializes the per-model
metric data keyed by the full metric enumeration. -/
def SnapSpec (a : Args) (labelsSoFar : List String) (lo : LabelOut) : Prop :=
  (∀ metric ∈ nonCmMetrics, ∃ t, lo.tablesAfter.lookup metric = some t ∧
    t.colNames = dedupF (labelsSoFar.map sanitizeLabel) ∧
    t.rowNames = gridNames a ∧
    (∀ mn r v, (mn, r) ∈ lo.all_model_metrics →
      r.test_metrics.lookup metric = some v →
      t.getCell mn (sanitizeLabel lo.label) = some v) ∧
    lo.filesAfter.lookup (csvPath a metric) = some (FileData.text (tableToCsv t))) ∧
  lo.filesAfter.lookup (jsonPath a lo.label) = some (FileData.json lo.jsonOut) ∧
  (∃ entries, jsonMetricDataE lo.all_model_metrics all_classification_metrics_list =
    Except.ok entries ∧ lo.jsonOut = Json.obj entries)

/-- The loop-state invariant carrying `SnapSpec` for every completed label. -/
def RunTablesInv (a : Args) (st : St) : Prop :=
  st.tables.map Prod.fst = nonCmMetrics ∧
  (∀ metric t, st.tables.lookup metric = some t →
    t.colNames = dedupF ((st.outs.map LabelOut.label).map sanitizeLabel) ∧
    t.rowNames = (if st.outs.isEmpty then [] else gridNames a)) ∧
  (∀ j, j < st.outs.length →
    SnapSpec a ((st.outs.take (j + 1)).map LabelOut.label) (st.outs.getD j default))

theorem initSt_inv (a : Args) : RunTablesInv a (initSt a) := by
  refine ⟨initTables_keys, ?_, ?_⟩
  · intro metric t ht
    have : t = emptyTable := lookup_map_const ht
    rw [this]
    exact ⟨rfl, rfl⟩
  · intro j hj
    simp [initSt] at hj

theorem initStExt_inv (a : Args) : RunTablesInv a (initStExt a) := by
  refine ⟨initTables_keys, ?_, ?_⟩
  · intro metric t ht
    have : t = emptyTable := lookup_map_const ht
    rw [this]
    exact ⟨rfl, rfl⟩
  · intro j hj
    simp [initStExt] at hj

theorem labelStep_preserves_inv {ev : EvalFn} {a : Args} {X Y : DF}
    {ext : Option (DF × DF)} {g : Nat} {st : St} {l : String} {st' : St}
    (hev : EvalOK ev) (hstep : labelStep ev a X Y ext g st l = Except.ok st')
    (hI : RunTablesInv a st) : RunTablesInv a st' := by
  obtain ⟨lo, houts, htab, hfiles, _, hlab, _, hamm, hjson, happly, hfeq⟩ :=
    labelStep_spec hstep
  have hkeys : lo.all_model_metrics.map Prod.fst = gridNames a := by
    rw [hamm]
    exact buildAmm_keys ev a _
  have hndnames : (lo.all_model_metrics.map Prod.fst).Nodup := by
    rw [hkeys]
    exact gridNames_nodup a
  have hres : ∀ p ∈ lo.all_model_metrics, ResOK p.2 := by
    rw [hamm]
    exact buildAmm_resOK hev a _
  have htdnodup : ∀ p ∈ lo.all_model_metrics, (p.2.test_metrics.map Prod.fst).Nodup :=
    fun p hp => resOK_test_keys_nodup (hres p hp)
  have hne : lo.all_model_metrics ≠ [] := by
    rw [hamm]
    exact buildAmm_ne_nil ev a _
  have hlookupAll : ∀ metric ∈ nonCmMetrics,
      ∀ p ∈ lo.all_model_metrics, ∃ v, p.2.test_metrics.lookup metric = some v := by
    intro metric hmc p hp
    obtain ⟨hm, hcm⟩ := mem_nonCm.mp hmc
    obtain ⟨q, hq⟩ := resOK_test_lookup (hres p hp) hm hcm
    exact ⟨MVal.scalar q, hq⟩
  have hkeys2 : st'.tables.map Prod.fst = nonCmMetrics := by
    rw [htab, applyAllTestData_keys happly, hI.1]
  -- the per-metric new table
  have hmain : ∀ metric ∈ nonCmMetrics, ∃ told,
      st.tables.lookup metric = some told ∧
      lo.tablesAfter.lookup metric =
        some (tableFold metric l lo.all_model_metrics told) := by
    intro metric hmc
    have hmem : metric ∈ st.tables.map Prod.fst := by
      rw [hI.1]
      exact hmc
    obtain ⟨told, htold⟩ := lookup_of_mem_keys hmem
    exact ⟨told, htold,
      applyAllTestData_lookup htdnodup happly (mem_nonCm.mp hmc).2 htold⟩
  have hlabels : st'.outs.map LabelOut.label =
      st.outs.map LabelOut.label ++ [lo.label] := by
    rw [houts, List.map_append, List.map_cons, List.map_nil]
  have hshape : ∀ metric ∈ nonCmMetrics, ∀ told,
      st.tables.lookup metric = some told →
      (tableFold metric l lo.all_model_metrics told).colNames =
        dedupF ((st'.outs.map LabelOut.label).map sanitizeLabel) ∧
      (tableFold metric l lo.all_model_metrics told).rowNames = gridNames a := by
    intro metric hmc told htold
    obtain ⟨hcolOld, hrowOld⟩ := hI.2.1 metric told htold
    constructor
    · rw [tableFold_colNames (hlookupAll metric hmc) hne told, hcolOld, hlabels,
        List.map_append, List.map_cons, List.map_nil, dedupF_append_singleton, hlab]
    · rw [tableFold_rowNames (hlookupAll metric hmc) told, hkeys, hrowOld]
      cases hout0 : st.outs.isEmpty with
      | true =>
        rw [if_pos rfl]
        exact dedupF_eq_self_of_nodup (gridNames_nodup a)
      | false =>
        rw [if_neg Bool.false_ne_true]
        exact foldl_addNew_absorb (fun x hx => hx)
  refine ⟨hkeys2, ?_, ?_⟩
  · intro metric t ht
    have hmc : metric ∈ nonCmMetrics := by
      rw [← hkeys2]
      exact mem_keys_of_lookup ht
    obtain ⟨told, htold, hfold⟩ := hmain metric hmc
    rw [htab] at ht
    rw [ht] at hfold
    have hteq : t = tableFold metric l lo.all_model_metrics told :=
      (Option.some.injEq _ _).mp hfold
    rw [hteq]
    have := hshape metric hmc told htold
    refine ⟨this.1, ?_⟩
    rw [this.2, if_neg]
    rw [houts]
    simp
  · intro j hj
    rw [houts] at hj
    rw [List.length_append, List.length_cons, List.length_nil] at hj
    by_cases hjlt : j < st.outs.length
    · -- an old snapshot, untouched
      have hget : (st'.outs.getD j default) = st.outs.getD j default := by
        rw [houts, List.getD_eq_getElem?_getD, List.getD_eq_getElem?_getD,
          List.getElem?_append_left hjlt]
      have htake : (st'.outs.take (j + 1)).map LabelOut.label =
          (st.outs.take (j + 1)).map LabelOut.label := by
        rw [houts, List.take_append_eq_append_take,
          Nat.sub_eq_zero_of_le hjlt, List.take_zero, List.append_nil]
      rw [hget, htake]
      exact hI.2.2 j hjlt
    · -- the freshly appended snapshot
      have hj2 : j = st.outs.length := by omega
      subst hj2
      have hget : st'.outs.getD st.outs.length default = lo := by
        rw [houts, List.getD_eq_getElem?_getD,
          List.getElem?_append_right (Nat.le_refl _), Nat.sub_self]
        rfl
      have htake : st'.outs.take (st.outs.length + 1) = st.outs ++ [lo] := by
        rw [houts]
        exact List.take_of_length_le (by simp)
      rw [hget, htake]
      refine ⟨?_, ?_, ?_⟩
      · intro metric hmc
        obtain ⟨told, htold, hfold⟩ := hmain metric hmc
        refine ⟨tableFold metric l lo.all_model_metrics told, hfold, ?_, ?_, ?_, ?_⟩
        · have := (hshape metric hmc told htold).1
          rw [this, hlabels]
          simp
        · exact (hshape metric hmc told htold).2
        · intro mn r v hmem hv
          rw [hlab]
          exact tableFold_getCell hndnames hmem hv
        · rw [hfeq]
          apply writeCsvs_lookup_csv
          · rw [applyAllTestData_keys happly, hI.1]
            exact nonCm_nodup
          · exact hfold
      · rw [hfeq]
        rw [writeCsvs_lookup_notkey]
        · rw [hlab]
          exact fsWrite_lookup_self _ _ _
        · intro q _ hc
          exact csvPath_ne_jsonPath a q.1 lo.label hc.symm
      · obtain ⟨entries, hjs, hobj⟩ := hjson
        refine ⟨entries, ?_, hobj⟩
        have hval : ((ev (lastCandidate (mainGridArg a.balancing_option) a.seed)
            (mkEvalInput a lo.X_train lo.y_train lo.X_test lo.y_test g)).val_metrics.map
              Prod.fst) = all_classification_metrics_list :=
          (hev _ _).1
        rw [← hval]
        exact hjs

/-- The run-level invariant, transported to the outcome of a successful run. -/
theorem mainRun_run_inv {ev : EvalFn} {a : Args} {X Y Xval Yval : DF} {g0 : Nat}
    {out : RunOut} (hev : EvalOK ev) (h : mainRun ev a X Y Xval Yval g0 = Except.ok out) :
    RunTablesInv a ⟨out.tables, out.files, out.trace, out.labels⟩ := by
  obtain ⟨st, hout, hcase⟩ := mainRun_ok_elim h
  have hst : RunTablesInv a st := by
    rcases hcase with ⟨_, _, hrun⟩ | ⟨_, hrun⟩
    · exact runLabels_inv (RunTablesInv a)
        (fun st1 l st2 hstep hI => labelStep_preserves_inv hev hstep hI) Y.colNames _ _ hrun
        (initStExt_inv a)
    · exact runLabels_inv (RunTablesInv a)
        (fun st1 l st2 hstep hI => labelStep_preserves_inv hev hstep hI) Y.colNames _ _ hrun
        (initSt_inv a)
  rw [hout]
  exact hst

theorem isFolds_eq {v : MVal} (h : v.isFolds = true) : ∃ qs, v = MVal.folds qs := by
  cases v with
  | folds qs => exact ⟨qs, rfl⟩
  | scalar q => exact absurd h (by simp [MVal.isFolds])
  | mat m2 => exact absurd h (by simp [MVal.isFolds])
  | mats ms => exact absurd h (by simp [MVal.isFolds])

theorem metricEntryE_spec {mname : String} {p : String × EvalResult} {q : String × Json}
    (h : metricEntryE mname p = Except.ok q) :
    ∃ vv tv jv jt, p.2.val_metrics.lookup mname = some vv ∧
      p.2.test_metrics.lookup mname = some tv ∧
      plainMValE vv = Except.ok jv ∧ plainMValE tv = Except.ok jt ∧
      q = (p.1, Json.arr [jv, jt]) := by
  rw [metricEntryE] at h
  split at h
  · rename_i vv tv hv ht
    split at h
    · rename_i jv jt hjv hjt
      cases h
      exact ⟨vv, tv, jv, jt, hv, ht, hjv, hjt, rfl⟩
    · exact Except.noConfusion h
    · exact Except.noConfusion h
  · exact Except.noConfusion h

theorem plainMValE_folds {qs : List Rat} {j : Json}
    (h : plainMValE (MVal.folds qs) = Except.ok j) :
    j = Json.arr (qs.map Json.num) := by
  rw [plainMValE] at h
  cases h
  rfl

theorem plainMValE_scalar {q : Rat} {j : Json}
    (h : plainMValE (MVal.scalar q) = Except.ok j) : j = Json.num q := by
  rw [plainMValE] at h
  cases h
  rfl

/-- Every entry of `json_metric_data` comes from the branch its metric name
selects at lines 115-122. -/
theorem jsonMetricDataE_branch {amm : List (String × EvalResult)} {names : List String}
    {entries : List (String × Json)}
    (h : jsonMetricDataE amm names = Except.ok entries) :
    ∀ p ∈ entries, ∃ es, p.2 = Json.obj es ∧
      (p.1 = "confusion_matrix" → amm.mapM cmEntryE = Except.ok es) ∧
      (p.1 ≠ "confusion_matrix" → amm.mapM (metricEntryE p.1) = Except.ok es) := by
  induction names generalizing entries with
  | nil =>
    simp only [jsonMetricDataE] at h
    cases h
    simp
  | cons mname rest ih =>
    rw [jsonMetricDataE] at h
    by_cases hcm : mname = "confusion_matrix"
    · rw [if_pos hcm] at h
      cases hes : amm.mapM cmEntryE with
      | error e =>
        rw [hes] at h
        cases htail : jsonMetricDataE amm rest with
        | error e2 =>
          rw [htail] at h
          exact Except.noConfusion h
        | ok tail =>
          rw [htail] at h
          exact Except.noConfusion h
      | ok es =>
        rw [hes] at h
        cases htail : jsonMetricDataE amm rest with
        | error e =>
          rw [htail] at h
          exact Except.noConfusion h
        | ok tail =>
          rw [htail] at h
          simp only [Except.ok.injEq] at h
          subst h
          intro p hp
          rcases List.mem_cons.mp hp with rfl | hmem
          · exact ⟨es, rfl, fun _ => rfl, fun hn => absurd hcm hn⟩
          · have hrec := ih htail p hmem
            rw [hes] at hrec
            exact hrec
    · rw [if_neg hcm] at h
      cases hes : amm.mapM (metricEntryE mname) with
      | error e =>
        rw [hes] at h
        cases htail : jsonMetricDataE amm rest with
        | error e2 =>
          rw [htail] at h
          exact Except.noConfusion h
        | ok tail =>
          rw [htail] at h
          exact Except.noConfusion h
      | ok es =>
        rw [hes] at h
        cases htail : jsonMetricDataE amm rest with
        | error e =>
          rw [htail] at h
          exact Except.noConfusion h
        | ok tail =>
          rw [htail] at h
          simp only [Except.ok.injEq] at h
          subst h
          intro p hp
          rcases List.mem_cons.mp hp with rfl | hmem
          · exact ⟨es, rfl, fun hc => absurd hc hcm, fun _ => hes⟩
          · exact ih htail p hmem

/-- C4 (amended): for every metric of the configured enumeration except the
confusion matrix, the run maintains exactly one table, with rows the model
class names; its columns are the *sanitized* label names — spaces replaced
by underscores, as line 138 indexes by `label_col.replace(' ', '_')` — of
the labels processed so far, and after each label completes, for every model
candidate the cell at `[model_name, sanitized label name]` equals that
model's test-set scalar for that metric. -/
theorem claim_C4 {ev : EvalFn} {a : Args} {X Y Xval Yval : DF} {g0 : Nat} {out : RunOut}
    (hev : EvalOK ev) (h : mainRun ev a X Y Xval Yval g0 = Except.ok out)
    {j : Nat} (hj : j < out.labels.length) {metric : String}
    (hm : metric ∈ all_classification_metrics_list) (hcm : metric ≠ "confusion_matrix") :
    out.tables.map Prod.fst = nonCmMetrics ∧
    ∃ t, (out.labels.getD j default).tablesAfter.lookup metric = some t ∧
      t.rowNames = gridNames a ∧
      t.colNames = dedupF (((out.labels.take (j + 1)).map LabelOut.label).map sanitizeLabel) ∧
      ∀ mn r, (mn, r) ∈ (out.labels.getD j default).all_model_metrics →
        ∃ q : Rat, r.test_metrics.lookup metric = some (MVal.scalar q) ∧
          t.getCell mn (sanitizeLabel (out.labels.getD j default).label) =
            some (MVal.scalar q) := by
  have hinv := mainRun_run_inv hev h
  have hsnap := hinv.2.2 j hj
  obtain ⟨t, hlook, hcols, hrows, hcell, _⟩ := hsnap.1 metric (mem_nonCm.mpr ⟨hm, hcm⟩)
  refine ⟨hinv.1, t, hlook, hrows, hcols, ?_⟩
  intro mn r hmem
  have hls := mainRun_labels_spec h _ (getD_mem hj)
  have hresOK : ResOK r := by
    have hmem2 := hls.1 ▸ hmem
    exact buildAmm_resOK hev a _ (mn, r) hmem2
  obtain ⟨q, hq⟩ := resOK_test_lookup hresOK hm hcm
  exact ⟨q, hq, hcell mn r _ hmem hq⟩

/-- C5 (amended): at the end of each label's processing every per-metric
table is persisted to `<out_dir>/data_frames/<metric>.csv` by overwriting —
the file's content equals the serialization of the current table alone — so
after the k-th label each CSV contains one row per model and one column per
*distinct sanitized* label name processed so far (two labels that agree
after replacing spaces with underscores share a column). -/
theorem claim_C5 {ev : EvalFn} {a : Args} {X Y Xval Yval : DF} {g0 : Nat} {out : RunOut}
    (hev : EvalOK ev) (h : mainRun ev a X Y Xval Yval g0 = Except.ok out)
    {j : Nat} (hj : j < out.labels.length) {metric : String}
    (hm : metric ∈ all_classification_metrics_list) (hcm : metric ≠ "confusion_matrix") :
    ∃ t, (out.labels.getD j default).tablesAfter.lookup metric = some t ∧
      (out.labels.getD j default).filesAfter.lookup (csvPath a metric) =
        some (FileData.text (tableToCsv t)) ∧
      t.rowNames = gridNames a ∧
      t.colNames =
        dedupF (((out.labels.take (j + 1)).map LabelOut.label).map sanitizeLabel) := by
  have hinv := mainRun_run_inv hev h
  obtain ⟨t, hlook, hcols, hrows, _, hcsv⟩ :=
    (hinv.2.2 j hj).1 metric (mem_nonCm.mpr ⟨hm, hcm⟩)
  exact ⟨t, hlook, hcsv, hrows, hcols⟩

/-- C7: for every label, the full per-model, per-metric raw data is
serialized to one JSON record at `<out_dir>/<label>/all_model_metrics.json`:
the record has one entry per metric of the enumeration, each an object with
one entry per model (in catalog order); the confusion-matrix entry pairs the
per-fold validation matrices with the test matrix, all converted to plain
nested sequences via `tolist`, and every other entry pairs the per-fold
validation values with the test scalar. -/
theorem claim_C7 {ev : EvalFn} {a : Args} {X Y Xval Yval : DF} {g0 : Nat} {out : RunOut}
    (hev : EvalOK ev) (h : mainRun ev a X Y Xval Yval g0 = Except.ok out)
    {j : Nat} (hj : j < out.labels.length) :
    (out.labels.getD j default).filesAfter.lookup
        (jsonPath a (out.labels.getD j default).label) =
      some (FileData.json (out.labels.getD j default).jsonOut) ∧
    ∃ entries, (out.labels.getD j default).jsonOut = Json.obj entries ∧
      entries.map Prod.fst = all_classification_metrics_list ∧
      ∀ p ∈ entries, ∃ es, p.2 = Json.obj es ∧
        es.map Prod.fst = gridNames a ∧
        (p.1 = "confusion_matrix" →
          ∀ q ∈ es, ∃ mn r ms t, (mn, r) ∈ (out.labels.getD j default).all_model_metrics ∧
            r.val_metrics.lookup "confusion_matrix" = some (MVal.mats ms) ∧
            r.test_metrics.lookup "confusion_matrix" = some (MVal.mat t) ∧
            q = (mn, Json.arr [Json.arr (ms.map (fun m2 => jsonOfMat m2.tolist)),
              jsonOfMat t.tolist])) ∧
        (p.1 ≠ "confusion_matrix" →
          ∀ q ∈ es, ∃ mn r qs sc, (mn, r) ∈ (out.labels.getD j default).all_model_metrics ∧
            r.val_metrics.lookup p.1 = some (MVal.folds qs) ∧
            r.test_metrics.lookup p.1 = some (MVal.scalar sc) ∧
            q = (mn, Json.arr [Json.arr (qs.map Json.num), Json.num sc])) := by
  have hinv := mainRun_run_inv hev h
  have hsnap := hinv.2.2 j hj
  obtain ⟨entries, hjs, hobj⟩ := hsnap.2.2
  refine ⟨hsnap.2.1, entries, hobj, ?_, ?_⟩
  · exact (jsonMetricDataE_spec hjs).1
  obtain ⟨hkeys, hall⟩ := jsonMetricDataE_spec hjs
  have hls := mainRun_labels_spec h _ (getD_mem hj)
  have hammkeys : (out.labels.getD j default).all_model_metrics.map Prod.fst = gridNames a := by
    rw [hls.1]
    exact buildAmm_keys ev a _
  intro p hp
  obtain ⟨es, hesObj, hesKeys, hcmcl⟩ := hall p hp
  refine ⟨es, hesObj, by rw [hesKeys, hammkeys], hcmcl, ?_⟩
  intro hncm q hq
  obtain ⟨es2, hes2Obj, _, hbr⟩ := jsonMetricDataE_branch hjs p hp
  have hes2eq : es2 = es := by
    rw [hesObj] at hes2Obj
    exact (Json.obj.inj hes2Obj).symm
  subst hes2eq
  have hmapM := hbr hncm
  obtain ⟨pr, hpr, hentry⟩ := mapM_ok_forall hmapM q hq
  obtain ⟨vv, tv, jv, jt, hv, ht, hjv, hjt, hqeq⟩ := metricEntryE_spec hentry
  have hpmem : p.1 ∈ all_classification_metrics_list := by
    rw [← hkeys]
    exact List.mem_map_of_mem _ hp
  have hres : ResOK pr.2 := by
    have hmem2 := hls.1 ▸ hpr
    exact buildAmm_resOK hev a _ pr hmem2
  have hvshape := hres.2.2.1 (p.1, vv) (lookup_mem hv)
  rw [if_neg hncm] at hvshape
  obtain ⟨qs, rfl⟩ := isFolds_eq hvshape
  have hjveq := plainMValE_folds hjv
  obtain ⟨sc, hsc⟩ := resOK_test_lookup hres hpmem hncm
  have htv : tv = MVal.scalar sc := by
    rw [ht] at hsc
    exact Option.some.inj hsc
  have hjteq : jt = Json.num sc := by
    rw [htv] at hjt
    exact plainMValE_scalar hjt
  refine ⟨pr.1, pr.2, qs, sc, hpr, hv, ?_, ?_⟩
  · rw [htv] at ht
    exact ht
  · rw [hqeq, hjveq, hjteq]

/-! ### A concrete run of the embedding -/

def trivNd : NdArray := ⟨[[1, 0], [0, 1]]⟩

/-- A constant well-formed evaluator result used to exercise the pipeline on
concrete inputs. -/
def trivRes : EvalResult where
  val_metrics := all_classification_metrics_list.map
    (fun m => (m, if m = "confusion_matrix" then MVal.mats [trivNd] else MVal.folds [1]))
  test_metrics := all_classification_metrics_list.map
    (fun m => (m, if m = "confusion_matrix" then MVal.mat trivNd else MVal.scalar 1))
  curves := []

/-- The constant evaluator. -/
def trivEval : EvalFn := fun _ _ => trivRes

theorem trivEval_ok : EvalOK trivEval := by
  intro c inp
  show ResOK trivRes
  unfold ResOK
  refine ⟨by decide, by decide, by decide, by decide⟩

def cexArgs : Args where
  dataset := "d"
  external_testset := false
  out_dir := "o"
  cv_splits := 2
  select_features := true
  shap_eval := false
  test_fraction := 1/2
  balancing_option := "class_weight"
  seed := 7

def cexX : DF := ⟨[("f", [0, 1, 2, 3, 4, 5, 6, 7])]⟩

def cexYvals : List Rat := [0, 0, 0, 0, 1, 1, 1, 1]

/-- A single label column whose name contains a space. -/
def cexY : DF := ⟨[("a b", cexYvals)]⟩

def cexOut : RunOut :=
  match mainRun trivEval cexArgs cexX cexY default default 0 with
  | Except.ok o => o
  | Except.error _ => ⟨[], [], [], []⟩

theorem cexRun_eq :
    mainRun trivEval cexArgs cexX cexY default default 0 = Except.ok cexOut := rfl

/-- The first (and only) completed label of the concrete internal-mode run. -/
def cexLo : LabelOut := cexOut.labels.getD 0 default

def cexAccTable : Table := (cexLo.tablesAfter.lookup "accuracy").getD emptyTable

/-- C4, counterexample to the original wording: the label is `"a b"`, yet the
accuracy table has no cell in a column named `"a b"` — the test value sits
under the sanitized column name `"a_b"`, because line 138 indexes the table
by `label_col.replace(' ', '_')`, not by the label name. -/
theorem claim_C4_counterexample :
    cexOut.labels.length = 1 ∧ cexLo.label = "a b" ∧
    cexLo.tablesAfter.lookup "accuracy" = some cexAccTable ∧
    cexAccTable.getCell "SVC" "a b" = none ∧
    cexAccTable.getCell "SVC" "a_b" = some (MVal.scalar 1) :=
  ⟨by with_unfolding_all rfl, by with_unfolding_all rfl, by with_unfolding_all rfl,
   by with_unfolding_all rfl, by with_unfolding_all rfl⟩

theorem claim_C4_witness :
    cexOut.tables.map Prod.fst = nonCmMetrics ∧
    ∃ t, cexLo.tablesAfter.lookup "accuracy" = some t ∧
      t.rowNames = gridNames cexArgs ∧
      t.colNames = dedupF (((cexOut.labels.take 1).map LabelOut.label).map sanitizeLabel) ∧
      ∀ mn r, (mn, r) ∈ cexLo.all_model_metrics →
        ∃ q : Rat, r.test_metrics.lookup "accuracy" = some (MVal.scalar q) ∧
          t.getCell mn (sanitizeLabel cexLo.label) = some (MVal.scalar q) :=
  @claim_C4 trivEval cexArgs cexX cexY default default 0 cexOut trivEval_ok cexRun_eq 0
    (by with_unfolding_all decide) "accuracy" (by with_unfolding_all decide) (by with_unfolding_all decide)

/-- Two label columns whose names collide after space sanitization. -/
def cex5Y : DF := ⟨[("a b", cexYvals), ("a_b", cexYvals)]⟩

def cex5Out : RunOut :=
  match mainRun trivEval cexArgs cexX cex5Y default default 0 with
  | Except.ok o => o
  | Except.error _ => ⟨[], [], [], []⟩

theorem cex5Run_eq :
    mainRun trivEval cexArgs cexX cex5Y default default 0 = Except.ok cex5Out := rfl

def cex5AccTable : Table := (cex5Out.tables.lookup "accuracy").getD emptyTable

/-- C5, counterexample to the original wording: after the second label
completes, the accuracy table behind the persisted CSV has a single column —
the two processed labels `"a b"` and `"a_b"` collide once spaces are
replaced by underscores, so the CSV does not have one column per label
processed so far. -/
theorem claim_C5_counterexample :
    cex5Out.labels.length = 2 ∧
    cex5Out.labels.map LabelOut.label = ["a b", "a_b"] ∧
    cex5Out.tables.lookup "accuracy" = some cex5AccTable ∧
    cex5AccTable.colNames = ["a_b"] ∧
    cex5Out.files.lookup (csvPath cexArgs "accuracy") =
      some (FileData.text (tableToCsv cex5AccTable)) :=
  ⟨by with_unfolding_all rfl, by with_unfolding_all rfl, by with_unfolding_all rfl,
   by with_unfolding_all rfl, by with_unfolding_all rfl⟩

theorem claim_C5_witness :
    ∃ t, (cex5Out.labels.getD 1 default).tablesAfter.lookup "accuracy" = some t ∧
      (cex5Out.labels.getD 1 default).filesAfter.lookup (csvPath cexArgs "accuracy") =
        some (FileData.text (tableToCsv t)) ∧
      t.rowNames = gridNames cexArgs ∧
      t.colNames = dedupF (((cex5Out.labels.take 2).map LabelOut.label).map sanitizeLabel) :=
  @claim_C5 trivEval cexArgs cexX cex5Y default default 0 cex5Out trivEval_ok cex5Run_eq 1
    (by with_unfolding_all decide) "accuracy" (by with_unfolding_all decide) (by with_unfolding_all decide)

theorem claim_C7_witness :
    cexLo.filesAfter.lookup (jsonPath cexArgs cexLo.label) =
      some (FileData.json cexLo.jsonOut) ∧
    ∃ entries, cexLo.jsonOut = Json.obj entries ∧
      entries.map Prod.fst = all_classification_metrics_list ∧
      ∀ p ∈ entries, ∃ es, p.2 = Json.obj es ∧
        es.map Prod.fst = gridNames cexArgs ∧
        (p.1 = "confusion_matrix" →
          ∀ q ∈ es, ∃ mn r ms t, (mn, r) ∈ cexLo.all_model_metrics ∧
            r.val_metrics.lookup "confusion_matrix" = some (MVal.mats ms) ∧
            r.test_metrics.lookup "confusion_matrix" = some (MVal.mat t) ∧
            q = (mn, Json.arr [Json.arr (ms.map (fun m2 => jsonOfMat m2.tolist)),
              jsonOfMat t.tolist])) ∧
        (p.1 ≠ "confusion_matrix" →
          ∀ q ∈ es, ∃ mn r qs sc, (mn, r) ∈ cexLo.all_model_metrics ∧
            r.val_metrics.lookup p.1 = some (MVal.folds qs) ∧
            r.test_metrics.lookup p.1 = some (MVal.scalar sc) ∧
            q = (mn, Json.arr [Json.arr (qs.map Json.num), Json.num sc])) :=
  @claim_C7 trivEval cexArgs cexX cexY default default 0 cexOut trivEval_ok cexRun_eq 0
    (by with_unfolding_all decide)

theorem claim_C2_witness :
    "f" ∈ cexLo.X_train.colNames ↔ "f" ∈ cexLo.X_test.colNames :=
  claim_C2 trivEval cexArgs cexX cexY default default 0 cexOut 0 "f" cexRun_eq (by with_unfolding_all decide)

theorem claim_C3_witness :
    ((cexLo.X_train, cexLo.X_test, cexLo.y_train, cexLo.y_test) =
      train_test_split cexX (cexY.col cexLo.label) cexArgs.test_fraction cexArgs.seed) ∧
    ∀ c ∈ uniq (cexY.col cexLo.label),
      ((cexLo.y_test.count c : Rat) * ((cexY.col cexLo.label).length : Rat) =
        ((cexY.col cexLo.label).count c : Rat) * (cexLo.y_test.length : Rat)) ∧
      ((cexLo.y_train.count c : Rat) * ((cexY.col cexLo.label).length : Rat) =
        ((cexY.col cexLo.label).count c : Rat) * (cexLo.y_train.length : Rat)) :=
  claim_C3 trivEval cexArgs cexX cexY default default 0 cexOut 0 cexRun_eq rfl (by with_unfolding_all decide)
    (by with_unfolding_all decide) (by with_unfolding_all decide)
    (by
      intro c hc
      refine ⟨2, ?_⟩
      have h01 : c = 0 ∨ c = 1 := by
        have he : uniq (cexY.col (cexOut.labels.getD 0 default).label) = [0, 1] := by
          with_unfolding_all rfl
        rw [he] at hc
        simpa using hc
      rcases h01 with rfl | rfl
      · with_unfolding_all decide
      · with_unfolding_all decide)

theorem claim_C6_witness :
    ((⟨"SVC", true, true, some "balanced", 7, [("C", [1])]⟩ : Candidate).supportsClassWeight =
          true →
      (⟨"SVC", true, true, some "balanced", 7, [("C", [1])]⟩ : Candidate).classWeight =
        if cexArgs.balancing_option = "class_weight" then some "balanced" else none) ∧
    ((⟨"SVC", true, true, some "balanced", 7, [("C", [1])]⟩ : Candidate).stochastic = true →
      (⟨"SVC", true, true, some "balanced", 7, [("C", [1])]⟩ : Candidate).seed = cexArgs.seed) :=
  claim_C6 cexArgs ⟨"SVC", true, true, some "balanced", 7, [("C", [1])]⟩ (by with_unfolding_all decide)

theorem claim_C8_witness :
    mainRun trivEval cexArgs cexX cexY default default 0 =
      mainRun trivEval cexArgs cexX cexY default default 1 ∧
    (∃ rest, cexOut.trace = [Event.npSeed cexArgs.seed, Event.pySeed cexArgs.seed] ++ rest ∧
      ∀ e ∈ rest, e = Event.reconcileEv ∨ stochEvent cexArgs e) :=
  claim_C8 trivEval cexArgs cexX cexY default default 0 1 cexOut cexRun_eq

theorem claim_C9_witness :
    cexLo.all_model_metrics = (mainGrid cexArgs).map (fun c => (c.name,
      trivEval c (mkEvalInput cexArgs cexLo.X_train cexLo.y_train cexLo.X_test
        cexLo.y_test cexArgs.seed))) :=
  claim_C9 trivEval cexArgs cexX cexY default default 0 cexOut 0 cexRun_eq (by with_unfolding_all decide)
    (by with_unfolding_all decide)

/-! ### A concrete external-validation scenario -/

def extArgs : Args := { cexArgs with external_testset := true }

def c1X : DF := ⟨[("a", [0]), ("b", [0])]⟩

def c1Xval : DF := ⟨[("a", [0]), ("c", [0])]⟩

theorem claim_C1_witness :
    (∀ c, c ∈ (dropExtraCols c1Xval c1X).colNames ↔
      c ∈ c1Xval.colNames ∧ c ∈ c1X.colNames) ∧
    mainRun trivEval extArgs c1X cexY c1Xval default 0 =
      Except.error "AssertionError: Train data includes columns that are missing in val data" :=
  claim_C1 trivEval extArgs c1X cexY c1Xval default 0 "b" rfl (by with_unfolding_all decide) (by with_unfolding_all decide)

def extX : DF := ⟨[("f", [0, 1, 2, 3])]⟩

def extXval : DF := ⟨[("f", [5, 6]), ("g", [7, 8])]⟩

def extY : DF := ⟨[("a b", [0, 1, 0, 1])]⟩

def extYval : DF := ⟨[("a b", [1, 0])]⟩

def extOut : RunOut :=
  match mainRun trivEval extArgs extX extY extXval extYval 0 with
  | Except.ok o => o
  | Except.error _ => ⟨[], [], [], []⟩

theorem extRun_eq :
    mainRun trivEval extArgs extX extY extXval extYval 0 = Except.ok extOut := rfl

def extLo : LabelOut := extOut.labels.getD 0 default

theorem claim_C10_witness :
    (extOut.trace.take 3 =
      [Event.npSeed extArgs.seed, Event.pySeed extArgs.seed, Event.reconcileEv] ∧
     Event.reconcileEv ∉ extOut.trace.drop 3) ∧
    extLo.X_train = extX ∧
    extLo.X_test = dropExtraCols extXval extX ∧
    extLo.y_train = extY.col extLo.label ∧
    extYval.columns.lookup extLo.label = some extLo.y_test :=
  claim_C10 trivEval extArgs extX extY extXval extYval 0 extOut 0 extRun_eq rfl (by with_unfolding_all decide)

end PROPEL
